import Mathlib

/-!
Shallow embedding of the scheduling core of `custom_scheduler/core.py`
(custom-scheduler-v2) and verification of the specification's claims.

The embedding mirrors the Python source:
* `V1Pod` / `V1Node` are flattened into records carrying exactly the fields
  the core reads (`metadata.name`, `metadata.annotations`,
  `spec.scheduler_name`, `spec.node_name`, `spec.priority`, `status.phase`).
  Fields that Python leaves as `None` are `Option`s.
* Python `dict`s (insertion ordered, assignment updates in place, insertion
  of a fresh key appends) are association lists with matching operations.
* Python exceptions (`ValueError` in `int(...)`, `KeyError` in
  `state.get_node`, `TypeError` on `None` comparisons) are modelled by
  returning `none`: `schedule` has type `... → Option SchedulingActions`,
  where `none` means the Python function raises.
* Python `sorted`/`list.sort` (stable, ascending, comparing keys with `<`)
  is modelled by a stable insertion sort.
-/

namespace Scheduler

/-- The pod fields read by the core (`V1Pod` flattened). `priority` is the raw
`spec.priority`, which is `None` when unset; the Python accessor
`get_pod_priority` forwards it unchanged because `hasattr(pod.spec, "priority")`
is always true on the client objects. -/
structure Pod where
  name : String
  schedulerName : Option String
  nodeName : Option String
  phase : Option String
  priority : Option Int
  annots : List (String × String)
deriving DecidableEq

/-- The node fields read by the core: only `metadata.name` (`V1Node`). -/
structure KNode where
  name : String
deriving DecidableEq

/-- `NodePodState` from core.py. The timestamp is never read by the core and
is omitted; `ns` is the `namespace` field. -/
structure NodePodState where
  nodes : List KNode
  pods : List Pod
  ns : String
deriving DecidableEq

/-- `V1Binding` as built by `create_binding`: pod name plus target node name. -/
structure Binding where
  podName : String
  nodeName : String
deriving DecidableEq

/-- `V1Eviction` as built by `create_eviction`: namespace plus pod name. -/
structure Eviction where
  ns : String
  podName : String
deriving DecidableEq

/-- `SchedulingActions` from core.py. -/
structure SchedulingActions where
  evictions : List Eviction
  bindings : List Binding
deriving DecidableEq

/-- `GangInfo` from core.py. `priority` keeps the `Option` because a gang of a
single pod with unset priority gets `None` as its aggregated priority. -/
structure GangInfo where
  group_name : String
  min_available : Int
  pods : List Pod
  priority : Option Int
deriving DecidableEq

/-- `GangSchedulingResult` from core.py. -/
structure GangSchedulingResult where
  bindings : List Binding
  evictions : List Eviction
  available_nodes : List KNode
  running_pods : List Pod
deriving DecidableEq

/-- `GROUP_NAME_ANNOTATION` in core.py. -/
def GROUP_NAME_KEY : String := "custom-scheduling.k8s.io/group-name"

/-- `MIN_AVAILABLE_ANNOTATION` in core.py (note the camelCase spelling in the
source, unlike the hyphenated spelling in `core_k8s.py` and the spec). -/
def MIN_AVAILABLE_KEY : String := "custom-scheduling.k8s.io/minAvailable"

/-- `create_binding` from core.py (only the fields the claims observe). -/
def create_binding (podName nodeName : String) : Binding := ⟨podName, nodeName⟩

/-- `create_eviction` from core.py. -/
def create_eviction (ns podName : String) : Eviction := ⟨ns, podName⟩

/-- `get_annotation` from core.py: an absent (or empty, which is falsy in
Python) annotation map and a missing key both yield the default. -/
def get_annot (p : Pod) (key dflt : String) : String :=
  match p.annots.lookup key with
  | some v => v
  | none => dflt

/-- `get_pod_priority` from core.py: `pod.spec.priority if pod.spec and
hasattr(pod.spec, "priority") else 0`. On the kubernetes client objects the
`hasattr` test is always true, so the raw (possibly `None`) value is returned. -/
def get_pod_priority (p : Pod) : Option Int := p.priority

/-- `is_pending` from core.py. -/
def is_pending (p : Pod) : Bool := p.phase == some "Pending"

/-- `is_running` from core.py: phase `Running` and a truthy (nonempty)
`node_name`. -/
def is_running (p : Pod) : Bool :=
  p.phase == some "Running" &&
    (match p.nodeName with
     | some s => s != ""
     | none => false)

/-- Lexicographic strict comparison of character lists by code point. -/
def listCharLt : List Char → List Char → Bool
  | [], [] => false
  | [], _ :: _ => true
  | _ :: _, [] => false
  | a :: as, b :: bs =>
      decide (a.toNat < b.toNat) || (a.toNat == b.toNat && listCharLt as bs)

/-- Python `<` on strings: lexicographic comparison of code points. -/
def strLt (a b : String) : Bool := listCharLt a.toList b.toList

/-- Value of a digit character. -/
def digitVal (c : Char) : Nat := c.toNat - 48

/-- Accumulate a digit list into a natural number. -/
def digitsToNat (cs : List Char) : Nat :=
  cs.foldl (fun a c => a * 10 + digitVal c) 0

/-- After one leading digit, Python `int()` accepts further digits with single
underscores allowed between digits; returns the digits with underscores
stripped, or `none` if malformed. -/
def pyDigitsRest : List Char → Option (List Char)
  | [] => some []
  | '_' :: c :: rest =>
      if c.isDigit then (pyDigitsRest rest).map (fun ds => c :: ds) else none
  | ['_'] => none
  | c :: rest =>
      if c.isDigit then (pyDigitsRest rest).map (fun ds => c :: ds) else none

/-- Python `int(s)` on a string: optional surrounding whitespace, optional
sign, then a nonempty digit run (single underscores permitted between
digits). `none` models the `ValueError` raised on anything else. -/
def pyParseInt (s : String) : Option Int :=
  let cs := (((s.toList.dropWhile Char.isWhitespace).reverse.dropWhile
    Char.isWhitespace)).reverse
  let signed : Int × List Char :=
    match cs with
    | '-' :: rest => (-1, rest)
    | '+' :: rest => (1, rest)
    | _ => (1, cs)
  match signed with
  | (sign, c :: rest) =>
      if c.isDigit then
        match pyDigitsRest rest with
        | some ds => some (sign * (digitsToNat (c :: ds) : Int))
        | none => none
      else none
  | (_, []) => none

/-- Python `max` over the per-pod priorities of a gang (a nonempty sequence of
optional ints): a single element is returned without any comparison; with two
or more elements, any `None` gets compared and raises `TypeError` (outer
`none`). -/
def pyMaxPriority (xs : List (Option Int)) : Option (Option Int) :=
  match xs with
  | [] => none
  | [a] => some a
  | _ =>
      if xs.all (·.isSome) then
        match xs.filterMap id with
        | v :: vs => some (some (vs.foldl max v))
        | [] => none
      else none

/-- The `min_available` aggregation in `get_gang_info`:
`max(int(get_annotation(pod, MIN_AVAILABLE_ANNOTATION, "1")) for pod in pods)`;
a parse failure raises (outer `none`). -/
def gangMinAvailable (pods : List Pod) : Option Int :=
  match pods.mapM (fun p => pyParseInt (get_annot p MIN_AVAILABLE_KEY "1")) with
  | some (v :: vs) => some (vs.foldl max v)
  | _ => none

/-! Python `dict` model: an association list in insertion order. Assignment
to an existing key updates the value in place; a fresh key is appended. -/

/-- Python `d[k] = v`. -/
def dictInsert {α : Type} : List (String × α) → String → α → List (String × α)
  | [], k, v => [(k, v)]
  | (k', v') :: rest, k, v =>
      if k' = k then (k, v) :: rest else (k', v') :: dictInsert rest k v

/-- Build a dict from key-value pairs in order (comprehension semantics). -/
def dictOfList {α : Type} (l : List (String × α)) : List (String × α) :=
  l.foldl (fun d kv => dictInsert d kv.1 kv.2) []

/-- Python `d.get(k)` / `d[k]` lookup. -/
def dictGet {α : Type} (l : List (String × α)) (k : String) : Option α :=
  l.lookup k

/-- Python `k in d`. -/
def dictContains {α : Type} (l : List (String × α)) (k : String) : Bool :=
  (l.lookup k).isSome

/-- Python `del d[k]` (the key is always present at the call sites). -/
def dictDel {α : Type} (l : List (String × α)) (k : String) : List (String × α) :=
  l.filter (fun kv => kv.1 != k)

/-- Python `list(d.values())`. -/
def dictValues {α : Type} (l : List (String × α)) : List α := l.map (·.2)

/-- The group key of a pod in `get_gang_info`: the group-name annotation when
present and nonempty, else the pod's own name. -/
def podGroupName (p : Pod) : String :=
  let g := get_annot p GROUP_NAME_KEY ""
  if g = "" then p.name else g

/-- First pass of `get_gang_info`: partition pods into groups, dict-ordered. -/
def gangGroups (pods : List Pod) : List (String × List Pod) :=
  pods.foldl
    (fun d p =>
      let gname := podGroupName p
      match dictGet d gname with
      | some ps => dictInsert d gname (ps ++ [p])
      | none => dictInsert d gname [p])
    []

/-- `get_gang_info` from core.py: group pods by group name, then aggregate
`min_available` (max of parsed annotations, parse failure raises) and
`priority` (Python `max` of the optional priorities). -/
def get_gang_info (pods : List Pod) : Option (List (String × GangInfo)) :=
  (gangGroups pods).mapM (fun gp => do
    let ma ← gangMinAvailable gp.2
    let prio ← pyMaxPriority (gp.2.map get_pod_priority)
    pure (gp.1, GangInfo.mk gp.1 ma gp.2 prio))

/-- `GangInfo.is_single_pod` from core.py. -/
def GangInfo.isSinglePod (g : GangInfo) : Bool := g.min_available ≤ 1

/-- `get_gang_sort_key` from core.py with the default `DESCENDING` order:
`(-priority, not is_single_pod, min_available, group_name)`. Negating a `None`
priority raises `TypeError` (`none`). -/
def get_gang_sort_key (g : GangInfo) : Option (Int × Bool × Int × String) :=
  match g.priority with
  | some p => some (-p, !g.isSinglePod, g.min_available, g.group_name)
  | none => none

/-- Python `<` on the gang sort keys (tuple comparison; all components are
always comparable here). `false < true` as in Python bools. -/
def gangKeyLt (a b : Int × Bool × Int × String) : Bool :=
  if a.1 ≠ b.1 then a.1 < b.1
  else if a.2.1 ≠ b.2.1 then !a.2.1 && b.2.1
  else if a.2.2.1 ≠ b.2.2.1 then a.2.2.1 < b.2.2.1
  else strLt a.2.2.2 b.2.2.2

/-- Stable insertion into a list sorted ascending w.r.t. the strict
comparison `lt` (the inserted element precedes later equal elements, as in
Python's stable sorts). -/
def sInsert {α : Type} (lt : α → α → Bool) (x : α) : List α → List α
  | [] => [x]
  | y :: ys => if lt y x then y :: sInsert lt x ys else x :: y :: ys

/-- Stable ascending sort by the strict comparison `lt` (models Python
`sorted`). -/
def sSort {α : Type} (lt : α → α → Bool) : List α → List α
  | [] => []
  | x :: xs => sInsert lt x (sSort lt xs)

/-- Python `<` on the `(priority, name)` keys used when sorting running pods
for preemption: `None` compares equal to `None` (falling through to the
name), while comparing `None` against an int raises `TypeError` (`none`). -/
def pyPrioNameLt (a b : Option Int × String) : Option Bool :=
  match a, b with
  | (none, n1), (none, n2) => some (strLt n1 n2)
  | (some x, n1), (some y, n2) =>
      if x = y then some (strLt n1 n2) else some (decide (x < y))
  | _, _ => none

/-- Monadic stable insertion for `sorted(running, key=(priority, name))`;
`none` models the `TypeError` raised when a comparison hits a `None`. -/
def pyInsertRun (x : Pod) : List Pod → Option (List Pod)
  | [] => some [x]
  | y :: ys => do
      let lt ← pyPrioNameLt (get_pod_priority y, y.name) (get_pod_priority x, x.name)
      if lt then
        let rest ← pyInsertRun x ys
        pure (y :: rest)
      else
        pure (x :: y :: ys)

/-- `sorted(running_pods.values(), key=lambda p: (priority, name))` with
Python's exception behaviour on `None` priorities. -/
def pySortRun : List Pod → Option (List Pod)
  | [] => some []
  | x :: xs => do
      let s ← pySortRun xs
      pyInsertRun x s

/-- Python `>=` between two optional ints: any `None` raises `TypeError`. -/
def pyGeOpt : Option Int → Option Int → Option Bool
  | some a, some b => some (decide (a ≥ b))
  | _, _ => none

/-- `_node_by_name` built in `NodePodState.__post_init__`. -/
def NodePodState.nodeByName (s : NodePodState) : List (String × KNode) :=
  dictOfList (s.nodes.map (fun n => (n.name, n)))

/-- `NodePodState.get_node`; `none` models the `KeyError` on a missing name. -/
def NodePodState.getNode (s : NodePodState) (name : String) : Option KNode :=
  dictGet s.nodeByName name

/-- Outcome of the preemption selection loop in `process_gang`. -/
inductive PreemptOutcome where
  | err : PreemptOutcome
  | empty : PreemptOutcome
  | ok : List Pod → PreemptOutcome
deriving DecidableEq

/-- The victim-selection loop of `process_gang`: pop the lowest-priority
running pod `needed` times; an exhausted list or an equal-or-higher-priority
candidate aborts the gang (`empty`); a `None` in the priority comparison
raises (`err`). -/
def select_preempt (gangPrio : Option Int) : Nat → List Pod → PreemptOutcome
  | 0, _ => .ok []
  | _ + 1, [] => .empty
  | n + 1, lowest :: rest =>
      match pyGeOpt (get_pod_priority lowest) gangPrio with
      | none => .err
      | some true => .empty
      | some false =>
          match select_preempt gangPrio n rest with
          | .ok ps => .ok (lowest :: ps)
          | o => o

/-- The eviction-application loop of `process_gang`: emit an eviction, add the
vacated node to the available dict (`state.get_node` may raise `KeyError`,
including on a `None` node name), and drop the pod from the running dict. -/
def apply_preempt (state : NodePodState) :
    List (String × KNode) → List (String × Pod) → List Eviction → List Pod →
    Option (List (String × KNode) × List (String × Pod) × List Eviction)
  | availD, runD, evs, [] => some (availD, runD, evs)
  | availD, runD, evs, p :: ps =>
      match p.nodeName with
      | none => none
      | some nn =>
          match state.getNode nn with
          | none => none
          | some node =>
              apply_preempt state (dictInsert availD nn node) (dictDel runD p.name)
                (evs ++ [create_eviction state.ns p.name]) ps

/-- The binding loop of `process_gang` over the zipped (node, pod) pairs:
append a binding, add the pod to the running dict, delete the node from the
available dict. -/
def bind_loop :
    List (String × KNode) → List (String × Pod) → List Binding →
    List (KNode × Pod) →
    List (String × KNode) × List (String × Pod) × List Binding
  | availD, runD, bs, [] => (availD, runD, bs)
  | availD, runD, bs, (node, p) :: rest =>
      bind_loop (dictDel availD node.name) (dictInsert runD p.name p)
        (bs ++ [create_binding p.name node.name]) rest

/-- The preemption block of `process_gang` (lines 271-298). Outer `none` is a
raised exception; `some none` is the early `EMPTY_SCHEDULE_RESULT` return;
`some (some _)` carries the updated dicts and evictions. The running pods are
sorted before the `needed_nodes > 0` test, exactly as in the source. -/
def preempt_phase (gang : GangInfo) (availD : List (String × KNode))
    (runD : List (String × Pod)) (state : NodePodState) (preempt : Bool)
    (pods_to_schedule : Int) :
    Option (Option (List (String × KNode) × List (String × Pod) × List Eviction)) :=
  if preempt then
    match pySortRun (dictValues runD) with
    | none => none
    | some sortedRun =>
        let needed : Int := pods_to_schedule - (availD.length : Int)
        if needed > 0 then
          match select_preempt gang.priority needed.toNat sortedRun with
          | .err => none
          | .empty => some none
          | .ok toPre =>
              match apply_preempt state availD runD [] toPre with
              | none => none
              | some s => some (some s)
        else some (some (availD, runD, []))
  else some (some (availD, runD, []))

/-- `process_gang` from core.py. `none` models a raised exception. -/
def process_gang (gang : GangInfo) (available_nodes : List KNode)
    (running_pods : List Pod) (state : NodePodState) (preempt : Bool) :
    Option GangSchedulingResult :=
  let emptyResult : GangSchedulingResult := ⟨[], [], available_nodes, running_pods⟩
  let availD := dictOfList (available_nodes.map (fun n => (n.name, n)))
  let runD := dictOfList (running_pods.map (fun p => (p.name, p)))
  let pending_gang_pods := gang.pods.filter (fun p => is_pending p)
  if pending_gang_pods.isEmpty then some emptyResult
  else
    let running_gang_pods : Int :=
      ((gang.pods.filter (fun p => dictContains runD p.name)).length : Int)
    let pods_to_schedule : Int :=
      min ((pending_gang_pods.length : Int)) (gang.min_available - running_gang_pods)
    if pods_to_schedule ≤ 0 then
      some ⟨[], [], dictValues availD, dictValues runD⟩
    else
      match preempt_phase gang availD runD state preempt pods_to_schedule with
      | none => none
      | some none => some emptyResult
      | some (some (availD2, runD2, evs)) =>
          if (availD2.length : Int) < pods_to_schedule then some emptyResult
          else
            let k := pods_to_schedule.toNat
            let pairs := ((dictValues availD2).take k).zip (pending_gang_pods.take k)
            match bind_loop availD2 runD2 [] pairs with
            | (availD3, runD3, bs) =>
                some ⟨bs, evs, dictValues availD3, dictValues runD3⟩

/-- The in-scope pods of `schedule`: scheduler name matches exactly. -/
def in_scope_pods (scheduler_name : String) (state : NodePodState) : List Pod :=
  state.pods.filter (fun p => p.schedulerName == some scheduler_name)

/-- The running pods of the scheduler, as computed by `schedule`. -/
def running_pods_of (scheduler_name : String) (state : NodePodState) : List Pod :=
  (in_scope_pods scheduler_name state).filter (fun p => is_running p)

/-- Node names occupied by running pods of the scheduler. -/
def occupied_node_names (scheduler_name : String) (state : NodePodState) : List String :=
  (running_pods_of scheduler_name state).filterMap (fun p => p.nodeName)

/-- `<` on node names for the available-node sort. -/
def nodeNameLt (a b : KNode) : Bool := strLt a.name b.name

/-- The available nodes of `schedule`: nodes without a running pod of this
scheduler, sorted by name. -/
def sorted_available_nodes (scheduler_name : String) (state : NodePodState) :
    List KNode :=
  sSort nodeNameLt
    (state.nodes.filter
      (fun n => !(occupied_node_names scheduler_name state).contains n.name))

/-- The gangs with at least one pending pod, in dict order. -/
def pending_gangs (scheduler_name : String) (state : NodePodState) :
    Option (List GangInfo) :=
  (get_gang_info (in_scope_pods scheduler_name state)).map
    (fun gs => (dictValues gs).filter (fun g => g.pods.any (fun p => is_pending p)))

/-- `pending_gangs.sort(key=get_gang_sort_key)`: compute every key (negating a
`None` priority raises), then sort stably by Python tuple `<`. -/
def sortedPendingGangs (scheduler_name : String) (state : NodePodState) :
    Option (List GangInfo) := do
  let pg ← pending_gangs scheduler_name state
  let keyed ← pg.mapM (fun g => (get_gang_sort_key g).map (fun k => (k, g)))
  pure ((sSort (fun a b => gangKeyLt a.1 b.1) keyed).map (·.2))

/-- The gang-processing loop of `schedule`: accumulated bindings/evictions are
extended, and the node/pod state advanced, only when the gang produced
bindings. -/
def schedule_fold (state : NodePodState) (preempt : Bool) :
    List GangInfo → List Binding → List Eviction → List KNode → List Pod →
    Option (List Binding × List Eviction)
  | [], allB, allE, _, _ => some (allB, allE)
  | gang :: rest, allB, allE, curN, curP =>
      match process_gang gang curN curP state preempt with
      | none => none
      | some result =>
          if result.bindings.isEmpty then
            schedule_fold state preempt rest allB allE curN curP
          else
            schedule_fold state preempt rest (allB ++ result.bindings)
              (allE ++ result.evictions) result.available_nodes result.running_pods

/-- `schedule` from core.py. `none` models a raised exception. -/
def schedule (scheduler_name : String) (state : NodePodState) (preempt : Bool) :
    Option SchedulingActions :=
  match sortedPendingGangs scheduler_name state with
  | none => none
  | some gangs =>
      match schedule_fold state preempt gangs [] []
          (sorted_available_nodes scheduler_name state)
          (running_pods_of scheduler_name state) with
      | none => none
      | some (allB, allE) => some ⟨allE, allB⟩

/-- Modelled from the spec (§4.4), for comparison only: the claimed ordering
key `(−maxPriority, −numPending, groupName)` of claim C5. -/
def specGangSortKey (g : GangInfo) : Option (Int × Int × String) :=
  g.priority.map
    (fun p => (-p, -(((g.pods.filter (fun q => is_pending q)).length : Int)),
      g.group_name))

/-- Lexicographic `<` on the spec's claimed ordering key. -/
def specKeyLt (a b : Int × Int × String) : Bool :=
  if a.1 ≠ b.1 then a.1 < b.1
  else if a.2.1 ≠ b.2.1 then a.2.1 < b.2.1
  else strLt a.2.2 b.2.2

/-- Modelled from the spec (§4.4): the pending gangs in the order the spec
claims `schedule` attempts them. -/
def specSortedPendingGangs (scheduler_name : String) (state : NodePodState) :
    Option (List GangInfo) := do
  let pg ← pending_gangs scheduler_name state
  let keyed ← pg.mapM (fun g => (specGangSortKey g).map (fun k => (k, g)))
  pure ((sSort (fun a b => specKeyLt a.1 b.1) keyed).map (·.2))

/-! ### Concrete snapshots used by the claims -/

/-- Single pending pod in group `g` whose `minAvailable` annotation is `3`. -/
def podC1g1 : Pod :=
  ⟨"g1", some "s", none, some "Pending", some 0,
   [("custom-scheduling.k8s.io/group-name", "g"),
    ("custom-scheduling.k8s.io/minAvailable", "3")]⟩

/-- Snapshot for C1: one node, one pending pod of a gang demanding 3. -/
def stateC1 : NodePodState := ⟨[⟨"n1"⟩], [podC1g1], "ns"⟩

def podC2o1 : Pod :=
  ⟨"o1", some "s", some "n1", some "Running", some 5,
   [("custom-scheduling.k8s.io/group-name", "og")]⟩

def podC2o2 : Pod :=
  ⟨"o2", some "s", some "n2", some "Running", some 50,
   [("custom-scheduling.k8s.io/group-name", "og")]⟩

def podC2p1 : Pod := ⟨"p1", some "s", none, some "Pending", some 10, []⟩

/-- Snapshot for C2: occupants `o1` (priority 5) and `o2` (priority 50) share
group `og` (so the group's max priority is 50); `p1` (priority 10) is pending
and both nodes are occupied. -/
def stateC2 : NodePodState := ⟨[⟨"n1"⟩, ⟨"n2"⟩], [podC2o1, podC2o2, podC2p1], "ns"⟩

/-- Snapshot for C3: a pending pod whose `minAvailable` annotation is not an
integer. -/
def stateC3 : NodePodState :=
  ⟨[⟨"n1"⟩],
   [⟨"p", some "s", none, some "Pending", some 0,
     [("custom-scheduling.k8s.io/minAvailable", "abc")]⟩], "ns"⟩

/-- Pod for C4 carrying the spec's hyphenated annotation key with value 5. -/
def podC4 : Pod :=
  ⟨"p4", some "s", none, some "Pending", some 0,
   [("custom-scheduling.k8s.io/min-available", "5")]⟩

def podC5a1 : Pod :=
  ⟨"a1", some "s", none, some "Pending", some 0,
   [("custom-scheduling.k8s.io/group-name", "ga"),
    ("custom-scheduling.k8s.io/minAvailable", "2")]⟩

def podC5a2 : Pod :=
  ⟨"a2", some "s", none, some "Pending", some 0,
   [("custom-scheduling.k8s.io/group-name", "ga"),
    ("custom-scheduling.k8s.io/minAvailable", "2")]⟩

def podC5b : Pod := ⟨"b", some "s", none, some "Pending", some 0, []⟩

/-- Snapshot for C5: a two-pod gang `ga` (2 pending pods, minAvailable 2) and
a singleton `b`, all priority 0, three nodes. -/
def stateC5 : NodePodState := ⟨[⟨"n1"⟩, ⟨"n2"⟩, ⟨"n3"⟩], [podC5a1, podC5a2, podC5b], "ns"⟩

/-- Snapshot for C7: spec scenario 4 (preemption). -/
def stateC7 : NodePodState :=
  ⟨[⟨"node-a"⟩, ⟨"node-b"⟩],
   [⟨"high-priority", some "s", none, some "Pending", some 20, []⟩,
    ⟨"low-priority", some "s", some "node-a", some "Running", some 5, []⟩,
    ⟨"medium-priority", some "s", none, some "Pending", some 10, []⟩], "ns"⟩

def podC8p1 : Pod :=
  ⟨"p1", some "s", none, some "Pending", some 0,
   [("custom-scheduling.k8s.io/group-name", "g")]⟩

def podC8p2 : Pod :=
  ⟨"p2", some "s", none, some "Pending", some 0,
   [("custom-scheduling.k8s.io/group-name", "g")]⟩

/-- Snapshot for C8: a gang of two pending pods, one node. -/
def stateC8 : NodePodState := ⟨[⟨"n1"⟩], [podC8p1, podC8p2], "ns"⟩

/-- `stateC8` with the two pods swapped. -/
def stateC8perm : NodePodState := ⟨[⟨"n1"⟩], [podC8p2, podC8p1], "ns"⟩

/-- Snapshot for C10: `q` is Pending but carries a stale `nodeName` pointing
at `n2`, whose actual Running occupant is `r2`; the Other-phase pod `x` lifts
`q`'s gang priority above `h`'s, so `q` is bound first and then preempted to
make room for `h`. -/
def stateC10 : NodePodState :=
  ⟨[⟨"n1"⟩, ⟨"n2"⟩],
   [⟨"q", some "s", some "n2", some "Pending", some 1,
     [("custom-scheduling.k8s.io/group-name", "G")]⟩,
    ⟨"x", some "s", none, some "Other", some 10,
     [("custom-scheduling.k8s.io/group-name", "G")]⟩,
    ⟨"r2", some "s", some "n2", some "Running", some 9, []⟩,
    ⟨"h", some "s", none, some "Pending", some 5, []⟩], "ns"⟩

/-- The facts needed about a Python-style strict comparison: asymmetry,
negative transitivity, and that mutual incomparability forces equality. -/
structure IsPyLt {α : Type} (lt : α → α → Bool) : Prop where
  asymm : ∀ a b, lt a b = true → lt b a = false
  negtrans : ∀ a b c, lt b a = false → lt c b = false → lt c a = false
  resolve : ∀ a b, lt a b = false → lt b a = false → a = b

/-- Python tuple comparison, one component at a time: compare heads if they
differ, else fall through to the tails. -/
def pairLt {α β : Type} [DecidableEq α] (ltA : α → α → Bool)
    (ltB : β → β → Bool) (x y : α × β) : Bool :=
  if x.1 ≠ y.1 then ltA x.1 y.1 else ltB x.2 y.2

/-- Snapshot used by the C8 witness: two nodes, one pending pod. -/
def stateC8w : NodePodState :=
  ⟨[⟨"n1"⟩, ⟨"n2"⟩], [⟨"w1", some "s", none, some "Pending", some 0, []⟩], "ns"⟩

/-- `stateC8w` with the node list reversed. -/
def stateC8wp : NodePodState :=
  ⟨[⟨"n2"⟩, ⟨"n1"⟩], [⟨"w1", some "s", none, some "Pending", some 0, []⟩], "ns"⟩

/-- A dict whose keys are exactly the names of its values, with no duplicate
keys. -/
def DictOK {α : Type} (nameOf : α → String) (d : List (String × α)) : Prop :=
  (d.map Prod.fst).Nodup ∧ ∀ kv ∈ d, nameOf kv.2 = kv.1

/-- The induction invariant for the bound-nodes claim: every available or
bound node is free in the original snapshot or its occupant is already
evicted; bound nodes are distinct and disjoint from the available pool;
current pods are original running pods (not yet evicted, on nodes that are
neither bound nor available) or carry no node name. -/
def C10Inv (runX : List Pod) (allB : List Binding) (allE : List Eviction)
    (curN : List KNode) (curP : List Pod) : Prop :=
  (∀ n ∈ curN, ∀ r ∈ runX, r.nodeName = some n.name →
    r.name ∈ allE.map Eviction.podName) ∧
  (∀ b ∈ allB, ∀ r ∈ runX, r.nodeName = some b.nodeName →
    r.name ∈ allE.map Eviction.podName) ∧
  (allB.map Binding.nodeName).Nodup ∧
  (∀ b ∈ allB, b.nodeName ∉ curN.map KNode.name) ∧
  (curN.map KNode.name).Nodup ∧
  (∀ p ∈ curP, (p ∈ runX ∧ p.name ∉ allE.map Eviction.podName ∧
      (∀ b ∈ allB, some b.nodeName ≠ p.nodeName) ∧
      (∀ n ∈ curN, some n.name ≠ p.nodeName)) ∨ p.nodeName = none) ∧
  (curP.map Pod.name).Nodup

/-- Snapshot used by the C10 witness: one node occupied by a low-priority
running pod, one pending high-priority pod. -/
def stateC10w : NodePodState :=
  ⟨[⟨"na"⟩], [⟨"hi", some "s", none, some "Pending", some 20, []⟩,
    ⟨"lo", some "s", some "na", some "Running", some 5, []⟩], "ns"⟩

/-! ### Claim theorems (concrete evaluations) -/

/-- C1: gang atomicity fails on the code. On `stateC1` the only gang has
`minAvailable = 3` and no running pods, yet `schedule` emits a binding for its
single pending pod, so the bound gang ends with 1 + 0 < 3 pods — the code
binds `min(pending, minAvailable − running)` pods instead of refusing a gang
that cannot reach its threshold, contradicting `process_gang`'s docstring and
the spec. -/
theorem c1_gang_atomicity_violated :
    schedule "s" stateC1 false = some ⟨[], [⟨"g1", "n1"⟩]⟩ ∧
    pending_gangs "s" stateC1 = some [⟨"g", 3, [podC1g1], some 0⟩] ∧
    running_pods_of "s" stateC1 = [] ∧
    (1 : Int) + 0 < 3 := by
  refine ⟨rfl, rfl, rfl, by decide⟩

/-- C2 (counterexample): priority respect as stated is false. On `stateC2`
the eviction targets `o1`, whose group `og` has max priority 50, to place the
pending gang `p1` of max priority 10: the code compares the victim's own pod
priority (5), not its group's max priority. -/
theorem c2_priority_respect_counterexample :
    schedule "s" stateC2 true = some ⟨[⟨"ns", "o1"⟩], [⟨"p1", "n1"⟩]⟩ ∧
    get_gang_info (in_scope_pods "s" stateC2) =
      some [("og", ⟨"og", 1, [podC2o1, podC2o2], some 50⟩),
            ("p1", ⟨"p1", 1, [podC2p1], some 10⟩)] ∧
    ¬((50 : Int) < 10) := by
  refine ⟨rfl, rfl, by decide⟩

/-- C3: totality fails on the code. On `stateC3`, whose pending pod carries
the unparsable `minAvailable` annotation value `"abc"`, `schedule` raises
(`int("abc")` raises `ValueError`; there is no try/except in
`get_gang_info`), instead of treating the contribution as 1. -/
theorem c3_totality_violated :
    schedule "s" stateC3 false = none ∧ schedule "s" stateC3 true = none ∧
    pyParseInt "abc" = none := by
  refine ⟨rfl, rfl, rfl⟩

/-- C4 (counterexample): the grouping does not read the annotation key
`custom-scheduling.k8s.io/min-available`. `podC4` carries that key with value
`"5"`, yet its gang's `min_available` is the default 1. -/
theorem c4_annot_key_counterexample :
    get_gang_info [podC4] = some [("p4", ⟨"p4", 1, [podC4], some 0⟩)] ∧
    podC4.annots.lookup "custom-scheduling.k8s.io/min-available" = some "5" ∧
    pyParseInt "5" = some 5 ∧ (1 : Int) ≠ 5 := by
  refine ⟨rfl, rfl, rfl, by decide⟩

/-- C5 (counterexample): the group ordering is not by
`(−maxPriority, −numPending, groupName)`. On `stateC5` the code attempts the
singleton `b` before the two-pod gang `ga` (its key sorts single pods first,
then by `min_available` ascending), while the spec's key would order `ga`
first; the emitted bindings show the code's order. -/
theorem c5_group_order_counterexample :
    (sortedPendingGangs "s" stateC5).map (fun l => l.map GangInfo.group_name) =
      some ["b", "ga"] ∧
    (specSortedPendingGangs "s" stateC5).map (fun l => l.map GangInfo.group_name) =
      some ["ga", "b"] ∧
    schedule "s" stateC5 false =
      some ⟨[], [⟨"b", "n1"⟩, ⟨"a1", "n2"⟩, ⟨"a2", "n3"⟩]⟩ ∧
    (["b", "ga"] : List String) ≠ ["ga", "b"] := by
  refine ⟨rfl, rfl, by decide, by decide⟩

/-- C7 (counterexample): scenario 4's expected output is wrong about which
node each pending pod receives. The code binds `high-priority` to the free
node `node-b` (no eviction needed at that point) and then preempts
`low-priority` to bind `medium-priority` to `node-a` — the opposite pairing
from the claim. -/
theorem c7_scenario4_counterexample :
    schedule "s" stateC7 true =
      some ⟨[⟨"ns", "low-priority"⟩],
            [⟨"high-priority", "node-b"⟩, ⟨"medium-priority", "node-a"⟩]⟩ ∧
    (⟨[⟨"ns", "low-priority"⟩],
      [⟨"high-priority", "node-b"⟩, ⟨"medium-priority", "node-a"⟩]⟩ :
        SchedulingActions) ≠
      ⟨[⟨"ns", "low-priority"⟩],
       [⟨"high-priority", "node-a"⟩, ⟨"medium-priority", "node-b"⟩]⟩ := by
  refine ⟨rfl, by decide⟩

/-- C7 (amended): on scenario 4's snapshot with preemption enabled, `schedule`
returns evictions `[low-priority]` and bindings for both pending pods, with
`high-priority` bound to the initially free node `node-b` and
`medium-priority` bound to the vacated node `node-a`. -/
theorem c7_scenario4_amended :
    schedule "s" stateC7 true =
      some ⟨[⟨"ns", "low-priority"⟩],
            [⟨"high-priority", "node-b"⟩, ⟨"medium-priority", "node-a"⟩]⟩ := rfl

/-- C8 (counterexample): permuting the pod list changes the output. Swapping
the two pending pods of gang `g` changes which of them is bound to the single
node, because the binding loop pairs pending pods in snapshot order. -/
theorem c8_permutation_counterexample :
    stateC8perm.pods.Perm stateC8.pods ∧
    stateC8perm.nodes = stateC8.nodes ∧ stateC8perm.ns = stateC8.ns ∧
    schedule "s" stateC8 false = some ⟨[], [⟨"p1", "n1"⟩]⟩ ∧
    schedule "s" stateC8perm false = some ⟨[], [⟨"p2", "n1"⟩]⟩ ∧
    (some (⟨[], [⟨"p1", "n1"⟩]⟩ : SchedulingActions) ≠
      some ⟨[], [⟨"p2", "n1"⟩]⟩) := by
  refine ⟨List.Perm.swap podC8p1 podC8p2 [], rfl, rfl, rfl, rfl, by decide⟩

/-- C10 (counterexample): the claim's hypothesis (every Running pod of the
scheduler names a listed node) holds on `stateC10`, yet the returned actions
bind node `n2` while its Running occupant `r2` is not evicted: the Pending pod
`q`, bound earlier in the same cycle, is preempted and its stale `nodeName`
releases `n2` as if it were `q`'s node. -/
theorem c10_bound_nodes_counterexample :
    (∀ p ∈ running_pods_of "s" stateC10, ∃ n ∈ stateC10.nodes,
      p.nodeName = some n.name) ∧
    schedule "s" stateC10 true =
      some ⟨[⟨"ns", "q"⟩], [⟨"q", "n1"⟩, ⟨"h", "n2"⟩]⟩ ∧
    "n2" ∈ ([⟨"q", "n1"⟩, ⟨"h", "n2"⟩] : List Binding).map Binding.nodeName ∧
    (∃ r ∈ running_pods_of "s" stateC10, r.nodeName = some "n2" ∧
      r.name ∉ ([⟨"ns", "q"⟩] : List Eviction).map Eviction.podName) := by
  refine ⟨by decide, rfl, by decide, by decide⟩

/-! ### Supporting lemmas -/

/-- With preemption disabled, `process_gang` never emits evictions. -/
theorem process_gang_false_evictions (gang : GangInfo) (avail : List KNode)
    (running : List Pod) (st : NodePodState) (res : GangSchedulingResult)
    (h : process_gang gang avail running st false = some res) :
    res.evictions = [] := by
  simp only [process_gang, preempt_phase, Bool.false_eq_true, if_false] at h
  split at h
  · cases h; rfl
  · split at h
    · cases h; rfl
    · split at h
      · cases h; rfl
      · cases h; rfl

/-- With preemption disabled, the gang loop leaves the eviction accumulator
unchanged. -/
theorem schedule_fold_false_evictions (st : NodePodState) :
    ∀ (gangs : List GangInfo) (allB : List Binding) (allE : List Eviction)
      (curN : List KNode) (curP : List Pod) (out : List Binding × List Eviction),
      schedule_fold st false gangs allB allE curN curP = some out →
      out.2 = allE := by
  intro gangs
  induction gangs with
  | nil =>
      intro allB allE curN curP out h
      simp only [schedule_fold] at h
      cases h; rfl
  | cons gang rest ih =>
      intro allB allE curN curP out h
      simp only [schedule_fold] at h
      cases hpg : process_gang gang curN curP st false with
      | none => rw [hpg] at h; cases h
      | some result =>
          rw [hpg] at h
          simp only at h
          have hev := process_gang_false_evictions gang curN curP st result hpg
          by_cases hb : result.bindings.isEmpty
          · rw [if_pos hb] at h
            exact ih allB allE curN curP out h
          · rw [if_neg hb] at h
            have := ih (allB ++ result.bindings) (allE ++ result.evictions)
              result.available_nodes result.running_pods out h
            rw [this, hev, List.append_nil]

/-- The gang loop preserves "nonempty evictions imply nonempty bindings" for
the accumulators. -/
theorem schedule_fold_evictions_imply_bindings (st : NodePodState) (pre : Bool) :
    ∀ (gangs : List GangInfo) (allB : List Binding) (allE : List Eviction)
      (curN : List KNode) (curP : List Pod) (out : List Binding × List Eviction),
      schedule_fold st pre gangs allB allE curN curP = some out →
      (allE ≠ [] → allB ≠ []) → (out.2 ≠ [] → out.1 ≠ []) := by
  intro gangs
  induction gangs with
  | nil =>
      intro allB allE curN curP out h hinv
      simp only [schedule_fold] at h
      cases h; exact hinv
  | cons gang rest ih =>
      intro allB allE curN curP out h hinv
      simp only [schedule_fold] at h
      cases hpg : process_gang gang curN curP st pre with
      | none => rw [hpg] at h; cases h
      | some result =>
          rw [hpg] at h
          simp only at h
          by_cases hb : result.bindings.isEmpty
          · rw [if_pos hb] at h
            exact ih allB allE curN curP out h hinv
          · rw [if_neg hb] at h
            refine ih _ _ _ _ out h ?_
            intro _
            intro hcontra
            rcases List.append_eq_nil.mp hcontra with ⟨-, h2⟩
            exact hb (by rw [h2]; rfl)

/-! ### Claim theorems (universal) -/

/-- C4 (amended): the `minAvailable` value used by `schedule`'s grouping is
read from the annotation whose key is exactly
`custom-scheduling.k8s.io/minAvailable` (camelCase): a pod carrying only
that annotation, with any value parsing to `n`, yields a gang with
`min_available = n`. -/
theorem c4_annot_key_amended (nm : String) (sch nod ph : Option String)
    (pr : Option Int) (v : String) (n : Int) (h : pyParseInt v = some n) :
    get_gang_info [⟨nm, sch, nod, ph, pr, [(MIN_AVAILABLE_KEY, v)]⟩] =
      some [(nm, ⟨nm, n, [⟨nm, sch, nod, ph, pr, [(MIN_AVAILABLE_KEY, v)]⟩], pr⟩)] := by
  have hma : gangMinAvailable [⟨nm, sch, nod, ph, pr, [(MIN_AVAILABLE_KEY, v)]⟩] =
      some n := by
    simp only [gangMinAvailable, List.mapM, List.mapM.loop, get_annot,
      MIN_AVAILABLE_KEY, List.lookup, beq_self_eq_true, if_pos, h]
    rfl
  simp only [get_gang_info, List.mapM, List.mapM.loop, hma]
  rfl

/-- Witness for C4 (amended) at the value `"7"`. -/
theorem c4_annot_key_witness :
    get_gang_info [⟨"w", none, none, some "Pending", some 0,
        [(MIN_AVAILABLE_KEY, "7")]⟩] =
      some [("w", ⟨"w", 7, [⟨"w", none, none, some "Pending", some 0,
        [(MIN_AVAILABLE_KEY, "7")]⟩], some 0⟩)] :=
  c4_annot_key_amended "w" none none (some "Pending") (some 0) "7" 7 (by decide)

/-- C6: eviction requires preemption — for every snapshot and scheduler name,
whenever `schedule` with `preempt = false` returns actions, the eviction list
is empty. -/
theorem c6_no_eviction_without_preempt (scheduler_name : String)
    (state : NodePodState) (A : SchedulingActions)
    (h : schedule scheduler_name state false = some A) : A.evictions = [] := by
  unfold schedule at h
  cases hg : sortedPendingGangs scheduler_name state with
  | none => rw [hg] at h; cases h
  | some gangs =>
      rw [hg] at h
      simp only at h
      cases hf : schedule_fold state false gangs [] []
          (sorted_available_nodes scheduler_name state)
          (running_pods_of scheduler_name state) with
      | none => rw [hf] at h; cases h
      | some out =>
          rw [hf] at h
          simp only at h
          obtain ⟨allB, allE⟩ := out
          cases h
          exact schedule_fold_false_evictions state gangs [] [] _ _ (allB, allE) hf

/-- Witness for C6 on the empty snapshot. -/
theorem c6_no_eviction_witness :
    (⟨[], []⟩ : SchedulingActions).evictions = [] :=
  c6_no_eviction_without_preempt "s" ⟨[], [], "ns"⟩ ⟨[], []⟩ rfl

/-- C9: evictions imply bindings — for every snapshot, scheduler name and
preemption flag, if the returned actions contain an eviction they also
contain a binding (a gang that evicts but cannot bind contributes nothing). -/
theorem c9_evictions_imply_bindings (scheduler_name : String)
    (state : NodePodState) (pre : Bool) (A : SchedulingActions)
    (h : schedule scheduler_name state pre = some A)
    (hne : A.evictions ≠ []) : A.bindings ≠ [] := by
  unfold schedule at h
  cases hg : sortedPendingGangs scheduler_name state with
  | none => rw [hg] at h; cases h
  | some gangs =>
      rw [hg] at h
      simp only at h
      cases hf : schedule_fold state pre gangs [] []
          (sorted_available_nodes scheduler_name state)
          (running_pods_of scheduler_name state) with
      | none => rw [hf] at h; cases h
      | some out =>
          rw [hf] at h
          simp only at h
          obtain ⟨allB, allE⟩ := out
          cases h
          exact schedule_fold_evictions_imply_bindings state pre gangs [] [] _ _
            (allB, allE) hf (fun hc => absurd rfl hc) hne

/-- Witness for C9 on the preemption snapshot `stateC7`. -/
theorem c9_evictions_imply_bindings_witness :
    ([⟨"high-priority", "node-b"⟩, ⟨"medium-priority", "node-a"⟩] :
      List Binding) ≠ [] :=
  c9_evictions_imply_bindings "s" stateC7 true
    ⟨[⟨"ns", "low-priority"⟩],
     [⟨"high-priority", "node-b"⟩, ⟨"medium-priority", "node-a"⟩]⟩
    rfl (by decide)

/-! ### Order lemmas and the group-ordering claim -/


theorem listCharLt_asymm : ∀ as bs, listCharLt as bs = true → listCharLt bs as = false := by
  intro as
  induction as with
  | nil =>
      intro bs h
      cases bs with
      | nil => simp [listCharLt] at h
      | cons b bs => simp [listCharLt]
  | cons a as ih =>
      intro bs h
      cases bs with
      | nil => simp [listCharLt] at h
      | cons b bs =>
          simp only [listCharLt, Bool.or_eq_true, Bool.and_eq_true, decide_eq_true_eq,
            beq_iff_eq] at h
          simp only [listCharLt, Bool.or_eq_false_iff, Bool.and_eq_false_iff,
            decide_eq_false_iff_not, beq_eq_false_iff_ne, ne_eq]
          rcases h with hlt | ⟨heq, hrec⟩
          · exact ⟨by omega, Or.inl (by omega)⟩
          · exact ⟨by omega, Or.inr (ih bs hrec)⟩

theorem listCharLt_negtrans :
    ∀ as bs cs, listCharLt bs as = false → listCharLt cs bs = false →
      listCharLt cs as = false := by
  intro as
  induction as with
  | nil =>
      intro bs cs h1 h2
      cases cs with
      | nil => simp [listCharLt]
      | cons c cs => simp [listCharLt]
  | cons a as ih =>
      intro bs cs h1 h2
      cases bs with
      | nil => simp [listCharLt] at h1
      | cons b bs =>
          cases cs with
          | nil => simp [listCharLt] at h2
          | cons c cs =>
              simp only [listCharLt, Bool.or_eq_false_iff, Bool.and_eq_false_iff,
                decide_eq_false_iff_not, beq_eq_false_iff_ne, ne_eq] at h1 h2 ⊢
              obtain ⟨hba, h1r⟩ := h1
              obtain ⟨hcb, h2r⟩ := h2
              refine ⟨by omega, ?_⟩
              rcases h1r with h1r | h1r
              · left; omega
              · rcases h2r with h2r | h2r
                · left; omega
                · right; exact ih bs cs h1r h2r

theorem listCharLt_eq_of_not :
    ∀ as bs, listCharLt as bs = false → listCharLt bs as = false → as = bs := by
  intro as
  induction as with
  | nil =>
      intro bs h1 h2
      cases bs with
      | nil => rfl
      | cons b bs => simp [listCharLt] at h1
  | cons a as ih =>
      intro bs h1 h2
      cases bs with
      | nil => simp [listCharLt] at h2
      | cons b bs =>
          simp only [listCharLt, Bool.or_eq_false_iff, Bool.and_eq_false_iff,
            decide_eq_false_iff_not, beq_eq_false_iff_ne, ne_eq] at h1 h2
          obtain ⟨hab, h1r⟩ := h1
          obtain ⟨hba, h2r⟩ := h2
          have htn : a.toNat = b.toNat := by omega
          have hchar : a = b := Char.ext (UInt32.ext htn)
          subst hchar
          rcases h1r with h1r | h1r
          · omega
          · rcases h2r with h2r | h2r
            · omega
            · rw [ih bs h1r h2r]

theorem strLt_asymm (a b : String) (h : strLt a b = true) : strLt b a = false :=
  listCharLt_asymm _ _ h

theorem strLt_negtrans (a b c : String) (h1 : strLt b a = false)
    (h2 : strLt c b = false) : strLt c a = false :=
  listCharLt_negtrans _ _ _ h1 h2

theorem strLt_eq_of_not (a b : String) (h1 : strLt a b = false)
    (h2 : strLt b a = false) : a = b := by
  have := listCharLt_eq_of_not _ _ h1 h2
  exact String.toList_inj.mp this

theorem sInsert_perm {α : Type} (lt : α → α → Bool) (x : α) :
    ∀ l : List α, (sInsert lt x l).Perm (x :: l)
  | [] => List.Perm.refl _
  | y :: ys => by
      simp only [sInsert]
      split
      · exact ((sInsert_perm lt x ys).cons y).trans (List.Perm.swap x y ys)
      · exact List.Perm.refl _

theorem sSort_perm {α : Type} (lt : α → α → Bool) :
    ∀ l : List α, (sSort lt l).Perm l
  | [] => List.Perm.refl _
  | x :: xs => (sInsert_perm lt x (sSort lt xs)).trans ((sSort_perm lt xs).cons x)

theorem sInsert_pairwise {α : Type} (lt : α → α → Bool)
    (hasym : ∀ a b, lt a b = true → lt b a = false)
    (hneg : ∀ a b c, lt b a = false → lt c b = false → lt c a = false) (x : α) :
    ∀ l : List α, l.Pairwise (fun a b => lt b a = false) →
      (sInsert lt x l).Pairwise (fun a b => lt b a = false)
  | [], _ => by simp [sInsert]
  | y :: ys, hp => by
      rw [List.pairwise_cons] at hp
      obtain ⟨hy, hys⟩ := hp
      simp only [sInsert]
      split
      · rename_i hlt
        rw [List.pairwise_cons]
        refine ⟨?_, sInsert_pairwise lt hasym hneg x ys hys⟩
        intro z hz
        rcases List.mem_cons.mp ((sInsert_perm lt x ys).mem_iff.mp hz) with hzx | hzys
        · subst hzx
          exact hasym y z hlt
        · exact hy z hzys
      · rename_i hlt
        have hlt2 : lt y x = false := by
          cases hv : lt y x
          · rfl
          · exact absurd hv hlt
        rw [List.pairwise_cons]
        refine ⟨?_, List.pairwise_cons.mpr ⟨hy, hys⟩⟩
        intro z hz
        rcases List.mem_cons.mp hz with hzy | hzys
        · subst hzy
          exact hlt2
        · exact hneg x y z hlt2 (hy z hzys)


theorem sSort_pairwise {α : Type} (lt : α → α → Bool)
    (hasym : ∀ a b, lt a b = true → lt b a = false)
    (hneg : ∀ a b c, lt b a = false → lt c b = false → lt c a = false) :
    ∀ l : List α, (sSort lt l).Pairwise (fun a b => lt b a = false)
  | [] => List.Pairwise.nil
  | x :: xs =>
      sInsert_pairwise lt hasym hneg x (sSort lt xs) (sSort_pairwise lt hasym hneg xs)


theorem intLt_isPyLt : IsPyLt (fun x y : Int => decide (x < y)) := by
  refine ⟨?_, ?_, ?_⟩ <;> intros a b <;> simp_all <;> omega

theorem boolLt_isPyLt : IsPyLt (fun x y : Bool => !x && y) := by
  refine ⟨?_, ?_, ?_⟩
  · exact fun a b => by cases a <;> cases b <;> simp
  · exact fun a b c => by cases a <;> cases b <;> cases c <;> simp
  · exact fun a b => by cases a <;> cases b <;> simp

theorem strLt_isPyLt : IsPyLt strLt :=
  ⟨strLt_asymm, fun a b c => strLt_negtrans a b c, strLt_eq_of_not⟩

theorem pairLt_isPyLt {α β : Type} [DecidableEq α] {ltA : α → α → Bool}
    {ltB : β → β → Bool} (hA : IsPyLt ltA) (hB : IsPyLt ltB) :
    IsPyLt (pairLt ltA ltB) := by
  refine ⟨?_, ?_, ?_⟩
  · intro a b h
    unfold pairLt at h ⊢
    by_cases e : a.1 = b.1
    · rw [if_neg (by simp [e])] at h ⊢
      exact hB.asymm _ _ h
    · rw [if_pos (by simp [e])] at h
      rw [if_pos (by simp [Ne.symm e])]
      exact hA.asymm _ _ h
  · intro a b c h1 h2
    unfold pairLt at h1 h2 ⊢
    by_cases eba : b.1 = a.1 <;> by_cases ecb : c.1 = b.1
    · rw [if_neg (by simp [eba])] at h1
      rw [if_neg (by simp [ecb])] at h2
      rw [if_neg (by simp [ecb.trans eba])]
      exact hB.negtrans _ _ _ h1 h2
    · rw [if_pos (by simp [ecb])] at h2
      have eca : c.1 ≠ a.1 := fun e => ecb (e.trans eba.symm)
      rw [if_pos (by simp [eca])]
      rw [eba] at h2
      exact h2
    · rw [if_pos (by simp [eba])] at h1
      have eca : c.1 ≠ a.1 := fun e => eba (ecb ▸ e)
      rw [if_pos (by simp [eca])]
      rw [← ecb] at h1
      exact h1
    · by_cases eca : c.1 = a.1
      · exfalso
        rw [if_pos (by simp [eba])] at h1
        rw [if_pos (by simp [ecb])] at h2
        rw [eca] at h2
        exact eba (hA.resolve _ _ h2 h1).symm
      · rw [if_pos (by simp [eba])] at h1
        rw [if_pos (by simp [ecb])] at h2
        rw [if_pos (by simp [eca])]
        exact hA.negtrans _ _ _ h1 h2
  · intro a b h1 h2
    unfold pairLt at h1 h2
    by_cases e : a.1 = b.1
    · rw [if_neg (by simp [e])] at h1
      rw [if_neg (by simp [e])] at h2
      exact Prod.ext e (hB.resolve _ _ h1 h2)
    · rw [if_pos (by simp [e])] at h1
      rw [if_pos (by simp [Ne.symm e])] at h2
      exact absurd (hA.resolve _ _ h1 h2) e

theorem gangKeyLt_isPyLt : IsPyLt gangKeyLt := by
  have he : gangKeyLt = pairLt (fun x y : Int => decide (x < y))
      (pairLt (fun x y : Bool => !x && y)
        (pairLt (fun x y : Int => decide (x < y)) strLt)) := by
    funext a b
    rfl
  rw [he]
  exact pairLt_isPyLt intLt_isPyLt
    (pairLt_isPyLt boolLt_isPyLt (pairLt_isPyLt intLt_isPyLt strLt_isPyLt))


theorem keyed_mapM_spec :
    ∀ (pg : List GangInfo) (keyed : List ((Int × Bool × Int × String) × GangInfo)),
      pg.mapM (fun g => (get_gang_sort_key g).map (fun k => (k, g))) = some keyed →
      keyed.map Prod.snd = pg ∧ ∀ kg ∈ keyed, get_gang_sort_key kg.2 = some kg.1 := by
  intro pg
  induction pg with
  | nil =>
      intro keyed h
      simp only [List.mapM_nil, pure, Option.some.injEq] at h
      subst h
      exact ⟨rfl, by simp⟩
  | cons g gs ih =>
      intro keyed h
      rw [List.mapM_cons] at h
      cases hk : get_gang_sort_key g with
      | none => rw [hk] at h; simp at h
      | some k =>
          rw [hk] at h
          cases hrest : gs.mapM (fun g => (get_gang_sort_key g).map (fun k => (k, g))) with
          | none => rw [hrest] at h; simp at h
          | some rest =>
              rw [hrest] at h
              have h2 : (k, g) :: rest = keyed := by simpa using h
              subst h2
              obtain ⟨hmap, hmem⟩ := ih rest hrest
              refine ⟨by simp [hmap], ?_⟩
              intro kg hkg
              rcases List.mem_cons.mp hkg with hkg | hkg
              · subst hkg; exact hk
              · exact hmem kg hkg

/-- C5 (amended): `schedule` attempts the pending groups in the total order of
the key `(−maxPriority, not-single-pod, minAvailable, groupName)` — highest
priority first, then single pods (minAvailable ≤ 1) before gangs, then
smaller `minAvailable` first, then lexicographically by group name: the list
of gangs it walks is a permutation of the pending gangs that is pairwise
ordered by that key. -/
theorem c5_group_order_amended (scheduler_name : String) (state : NodePodState)
    (gs : List GangInfo)
    (h : sortedPendingGangs scheduler_name state = some gs) :
    (∃ pg, pending_gangs scheduler_name state = some pg ∧ gs.Perm pg) ∧
    gs.Pairwise (fun g1 g2 => ∃ k1 k2, get_gang_sort_key g1 = some k1 ∧
      get_gang_sort_key g2 = some k2 ∧ gangKeyLt k2 k1 = false) := by
  unfold sortedPendingGangs at h
  cases hpg : pending_gangs scheduler_name state with
  | none => rw [hpg] at h; cases h
  | some pg =>
      rw [hpg] at h
      cases hkeyed : pg.mapM (fun g => (get_gang_sort_key g).map (fun k => (k, g))) with
      | none =>
          simp only [Option.bind_eq_bind, Option.some_bind, hkeyed] at h
          cases h
      | some keyed =>
          simp only [Option.bind_eq_bind, Option.some_bind, hkeyed] at h
          have h2 : (sSort (fun a b => gangKeyLt a.1 b.1) keyed).map Prod.snd = gs := by
            simpa using h
          obtain ⟨hmap, hmem⟩ := keyed_mapM_spec pg keyed hkeyed
          subst h2
          constructor
          · refine ⟨pg, rfl, ?_⟩
            rw [← hmap]
            exact List.Perm.map Prod.snd (sSort_perm _ keyed)
          · rw [List.pairwise_map]
            have hp := sSort_pairwise (fun a b => gangKeyLt a.1 b.1)
              (fun a b hab => gangKeyLt_isPyLt.asymm a.1 b.1 hab)
              (fun a b c h1 h2 => gangKeyLt_isPyLt.negtrans a.1 b.1 c.1 h1 h2) keyed
            refine List.Pairwise.imp_of_mem ?_ hp
            intro a b ha hb hab
            have hamem := (sSort_perm (fun a b => gangKeyLt a.1 b.1) keyed).mem_iff.mp ha
            have hbmem := (sSort_perm (fun a b => gangKeyLt a.1 b.1) keyed).mem_iff.mp hb
            exact ⟨a.1, b.1, hmem a hamem, hmem b hbmem, hab⟩

/-- Witness for C5 (amended) on `stateC5`. -/
theorem c5_group_order_witness :
    (∃ pg, pending_gangs "s" stateC5 = some pg ∧
      ([⟨"b", 1, [podC5b], some 0⟩, ⟨"ga", 2, [podC5a1, podC5a2], some 0⟩] :
        List GangInfo).Perm pg) ∧
    ([⟨"b", 1, [podC5b], some 0⟩, ⟨"ga", 2, [podC5a1, podC5a2], some 0⟩] :
      List GangInfo).Pairwise (fun g1 g2 => ∃ k1 k2, get_gang_sort_key g1 = some k1 ∧
        get_gang_sort_key g2 = some k2 ∧ gangKeyLt k2 k1 = false) :=
  c5_group_order_amended "s" stateC5
    [⟨"b", 1, [podC5b], some 0⟩, ⟨"ga", 2, [podC5a1, podC5a2], some 0⟩] (by decide)


/-! ### Node-permutation stability (C8) -/

theorem nodeNameLt_isPyLt : IsPyLt nodeNameLt := by
  refine ⟨?_, ?_, ?_⟩
  · intro a b h
    exact strLt_asymm _ _ h
  · intro a b c h1 h2
    exact strLt_negtrans _ _ _ h1 h2
  · intro a b h1 h2
    obtain ⟨an⟩ := a
    obtain ⟨bn⟩ := b
    have := strLt_eq_of_not an bn h1 h2
    rw [this]

/-- Two permuted lists have the same stable sort when the comparison is a
Python-style strict order. -/
theorem sSort_eq_of_perm {α : Type} (lt : α → α → Bool) (hlt : IsPyLt lt)
    (l1 l2 : List α) (hperm : l1.Perm l2) : sSort lt l1 = sSort lt l2 := by
  have inst : IsAntisymm α (fun a b => lt b a = false) :=
    ⟨fun a b h1 h2 => hlt.resolve a b h2 h1⟩
  exact @List.eq_of_perm_of_sorted α (fun a b => lt b a = false) inst _ _
    (((sSort_perm lt l1).trans hperm).trans (sSort_perm lt l2).symm)
    (sSort_pairwise lt hlt.asymm hlt.negtrans l1)
    (sSort_pairwise lt hlt.asymm hlt.negtrans l2)

theorem dictGet_insert {α : Type} :
    ∀ (d : List (String × α)) (k' : String) (v : α) (k : String),
      dictGet (dictInsert d k' v) k = if k' = k then some v else dictGet d k := by
  intro d
  induction d with
  | nil =>
      intro k' v k
      simp only [dictInsert, dictGet, List.lookup]
      by_cases h : k' = k
      · subst h; simp
      · have hb : (k == k') = false := beq_eq_false_iff_ne.mpr (fun e => h e.symm)
        simp [h, hb]
  | cons kv rest ih =>
      intro k' v k
      obtain ⟨k0, v0⟩ := kv
      simp only [dictInsert]
      by_cases h0 : k0 = k'
      · subst h0
        rw [if_pos rfl]
        simp only [dictGet, List.lookup]
        by_cases hk : k = k0
        · subst hk; simp
        · have hb : (k == k0) = false := beq_eq_false_iff_ne.mpr hk
          have hk2 : ¬(k0 = k) := fun e => hk e.symm
          simp [hb, hk2, dictGet]
      · rw [if_neg h0]
        simp only [dictGet, List.lookup]
        by_cases hk : k = k0
        · have hb : (k == k0) = true := beq_iff_eq.mpr hk
          have hk2 : ¬(k' = k) := fun e => h0 ((e.trans hk).symm)
          simp [hb, hk2, List.lookup]
        · have hb : (k == k0) = false := beq_eq_false_iff_ne.mpr hk
          simp only [hb]
          have := ih k' v k
          simp only [dictGet] at this
          rw [this]

theorem mem_dictInsert {α : Type} :
    ∀ (d : List (String × α)) (k : String) (v : α) (kv : String × α),
      kv ∈ dictInsert d k v → kv = (k, v) ∨ kv ∈ d := by
  intro d
  induction d with
  | nil => intro k v kv h; simp [dictInsert] at h; exact Or.inl h
  | cons kv0 rest ih =>
      intro k v kv h
      obtain ⟨k0, v0⟩ := kv0
      simp only [dictInsert] at h
      by_cases h0 : k0 = k
      · rw [if_pos h0] at h
        rcases List.mem_cons.mp h with h | h
        · exact Or.inl h
        · exact Or.inr (List.mem_cons_of_mem _ h)
      · rw [if_neg h0] at h
        rcases List.mem_cons.mp h with h | h
        · exact Or.inr (h ▸ List.mem_cons_self _ _)
        · rcases ih k v kv h with h | h
          · exact Or.inl h
          · exact Or.inr (List.mem_cons_of_mem _ h)

/-- Looking up a node name in `_node_by_name` yields exactly the node record
with that name when present. -/
theorem getNode_eq (s : NodePodState) (k : String) :
    s.getNode k =
      if s.nodes.any (fun n => n.name == k) then some ⟨k⟩ else none := by
  have L : ∀ (nodes : List KNode) (acc : List (String × KNode)),
      (∀ kv ∈ acc, kv.2 = ⟨kv.1⟩) →
      dictGet (nodes.foldl (fun d n => dictInsert d n.name n) acc) k =
        (if nodes.any (fun n => n.name == k) then some ⟨k⟩ else dictGet acc k) := by
    intro nodes
    induction nodes with
    | nil => intro acc hacc; simp
    | cons n ns ih =>
        intro acc hacc
        simp only [List.foldl_cons, List.any_cons]
        rw [ih (dictInsert acc n.name n) ?hinv]
        case hinv =>
          intro kv hkv
          rcases mem_dictInsert acc n.name n kv hkv with h | h
          · rw [h]
          · exact hacc kv h
        by_cases hn : (n.name == k) = true
        · have hne : n.name = k := by simpa using hn
          by_cases hany : ns.any (fun n => n.name == k) = true
          · simp [hn, hany]
          · simp only [hn, hany, Bool.true_or, if_true, Bool.false_eq_true, if_false]
            rw [dictGet_insert, if_pos hne]
            cases n
            simp_all
        · have hne : ¬(n.name = k) := by simpa using hn
          by_cases hany : ns.any (fun n => n.name == k) = true
          · simp [hn, hany]
          · simp only [hn, hany, Bool.false_or, Bool.false_eq_true, if_false]
            rw [dictGet_insert, if_neg hne]
  unfold NodePodState.getNode NodePodState.nodeByName dictOfList
  rw [List.foldl_map]
  exact L s.nodes [] (by simp)

theorem apply_preempt_congr (st stp : NodePodState) (hns : st.ns = stp.ns)
    (hget : ∀ k, st.getNode k = stp.getNode k) :
    ∀ (toPre : List Pod) (availD : List (String × KNode))
      (runD : List (String × Pod)) (evs : List Eviction),
      apply_preempt st availD runD evs toPre =
        apply_preempt stp availD runD evs toPre := by
  intro toPre
  induction toPre with
  | nil => intro availD runD evs; rfl
  | cons p ps ih =>
      intro availD runD evs
      simp only [apply_preempt]
      cases p.nodeName with
      | none => rfl
      | some nn =>
          simp only
          rw [hget nn]
          cases stp.getNode nn with
          | none => rfl
          | some node =>
              simp only [create_eviction, hns]
              exact ih _ _ _

theorem preempt_phase_congr (st stp : NodePodState) (hns : st.ns = stp.ns)
    (hget : ∀ k, st.getNode k = stp.getNode k) :
    ∀ (gang : GangInfo) (availD : List (String × KNode))
      (runD : List (String × Pod)) (pre : Bool) (pts : Int),
      preempt_phase gang availD runD st pre pts =
        preempt_phase gang availD runD stp pre pts := by
  intro gang availD runD pre pts
  simp only [preempt_phase, apply_preempt_congr st stp hns hget]

theorem process_gang_congr (st stp : NodePodState) (hns : st.ns = stp.ns)
    (hget : ∀ k, st.getNode k = stp.getNode k) (gang : GangInfo)
    (avail : List KNode) (running : List Pod) (pre : Bool) :
    process_gang gang avail running st pre =
      process_gang gang avail running stp pre := by
  simp only [process_gang, preempt_phase_congr st stp hns hget]

theorem schedule_fold_congr (st stp : NodePodState) (hns : st.ns = stp.ns)
    (hget : ∀ k, st.getNode k = stp.getNode k) (pre : Bool) :
    ∀ (gangs : List GangInfo) (allB : List Binding) (allE : List Eviction)
      (curN : List KNode) (curP : List Pod),
      schedule_fold st pre gangs allB allE curN curP =
        schedule_fold stp pre gangs allB allE curN curP := by
  intro gangs
  induction gangs with
  | nil => intro allB allE curN curP; rfl
  | cons gang rest ih =>
      intro allB allE curN curP
      simp only [schedule_fold, process_gang_congr st stp hns hget]
      cases process_gang gang curN curP stp pre with
      | none => rfl
      | some result =>
          simp only
          by_cases hb : result.bindings.isEmpty
          · rw [if_pos hb, if_pos hb]
            exact ih _ _ _ _
          · rw [if_neg hb, if_neg hb]
            exact ih _ _ _ _

/-- C8 (amended): permuting the node list of a snapshot (pods and namespace
unchanged) does not change the output of `schedule`; permuting the pod list
can change which pods of a gang are bound, as the counterexample shows. -/
theorem c8_node_permutation_amended (scheduler_name : String)
    (X Xp : NodePodState) (pre : Bool) (hpods : Xp.pods = X.pods)
    (hns : Xp.ns = X.ns) (hnodes : X.nodes.Perm Xp.nodes) :
    schedule scheduler_name X pre = schedule scheduler_name Xp pre := by
  have hins : in_scope_pods scheduler_name Xp = in_scope_pods scheduler_name X := by
    unfold in_scope_pods; rw [hpods]
  have hrun : running_pods_of scheduler_name Xp = running_pods_of scheduler_name X := by
    unfold running_pods_of; rw [hins]
  have hocc : occupied_node_names scheduler_name Xp = occupied_node_names scheduler_name X := by
    unfold occupied_node_names; rw [hrun]
  have hsorted : sorted_available_nodes scheduler_name Xp =
      sorted_available_nodes scheduler_name X := by
    unfold sorted_available_nodes
    rw [hocc]
    exact sSort_eq_of_perm nodeNameLt nodeNameLt_isPyLt _ _
      ((hnodes.filter _).symm)
  have hgangs : sortedPendingGangs scheduler_name Xp =
      sortedPendingGangs scheduler_name X := by
    unfold sortedPendingGangs pending_gangs; rw [hins]
  have hget : ∀ k, X.getNode k = Xp.getNode k := by
    intro k
    rw [getNode_eq, getNode_eq]
    have hany : X.nodes.any (fun n => n.name == k) =
        Xp.nodes.any (fun n => n.name == k) := by
      refine Bool.eq_iff_iff.mpr ?_
      rw [List.any_eq_true, List.any_eq_true]
      constructor
      · rintro ⟨x, hx, hp⟩
        exact ⟨x, hnodes.mem_iff.mp hx, hp⟩
      · rintro ⟨x, hx, hp⟩
        exact ⟨x, hnodes.mem_iff.mpr hx, hp⟩
    rw [hany]
  unfold schedule
  rw [hgangs, hsorted, hrun]
  cases sortedPendingGangs scheduler_name X with
  | none => rfl
  | some gangs =>
      simp only
      rw [schedule_fold_congr X Xp (hns.symm) hget]


/-- Witness for C8 (amended): the reversed node list yields the same actions. -/
theorem c8_node_permutation_witness :
    schedule "s" stateC8w false = schedule "s" stateC8wp false :=
  c8_node_permutation_amended "s" stateC8w stateC8wp false rfl rfl (by decide)


/-! ### Membership lemmas for the eviction claim (C2) -/

theorem mapM_mem_spec {α β : Type} (f : α → Option β) :
    ∀ (l : List α) (lr : List β), l.mapM f = some lr →
      ∀ y ∈ lr, ∃ x ∈ l, f x = some y := by
  intro l
  induction l with
  | nil =>
      intro lr h y hy
      simp only [List.mapM_nil, pure, Option.some.injEq] at h
      subst h
      simp at hy
  | cons a as ih =>
      intro lr h y hy
      rw [List.mapM_cons] at h
      cases hfa : f a with
      | none => rw [hfa] at h; simp at h
      | some b =>
          rw [hfa] at h
          cases hrest : as.mapM f with
          | none => rw [hrest] at h; simp at h
          | some bs =>
              rw [hrest] at h
              have h2 : b :: bs = lr := by simpa using h
              subst h2
              rcases List.mem_cons.mp hy with hy | hy
              · exact ⟨a, List.mem_cons_self _ _, hy ▸ hfa⟩
              · obtain ⟨x, hx, hfx⟩ := ih bs hrest y hy
                exact ⟨x, List.mem_cons_of_mem _ hx, hfx⟩

theorem mem_dictOfList {α : Type} :
    ∀ (l : List (String × α)) (kv : String × α), kv ∈ dictOfList l → kv ∈ l := by
  have L : ∀ (l : List (String × α)) (acc : List (String × α)) (kv : String × α),
      kv ∈ l.foldl (fun d kv => dictInsert d kv.1 kv.2) acc → kv ∈ acc ∨ kv ∈ l := by
    intro l
    induction l with
    | nil => intro acc kv h; exact Or.inl h
    | cons a as ih =>
        intro acc kv h
        simp only [List.foldl_cons] at h
        rcases ih (dictInsert acc a.1 a.2) kv h with h | h
        · rcases mem_dictInsert acc a.1 a.2 kv h with h | h
          · exact Or.inr (by rw [h]; exact List.mem_cons_self _ _)
          · exact Or.inl h
        · exact Or.inr (List.mem_cons_of_mem _ h)
  intro l kv h
  rcases L l [] kv h with h | h
  · simp at h
  · exact h

theorem mem_values_dictOfList_pods (l : List Pod) (p : Pod)
    (h : p ∈ dictValues (dictOfList (l.map (fun q => (q.name, q))))) : p ∈ l := by
  unfold dictValues at h
  obtain ⟨kv, hkv, hp⟩ := List.mem_map.mp h
  have := mem_dictOfList _ kv hkv
  obtain ⟨q, hq, hqe⟩ := List.mem_map.mp this
  rw [← hp, ← hqe]
  exact hq

theorem mem_values_dictDel {α : Type} (d : List (String × α)) (k : String) (v : α)
    (h : v ∈ dictValues (dictDel d k)) : v ∈ dictValues d := by
  unfold dictValues at h ⊢
  unfold dictDel at h
  obtain ⟨kv, hkv, hp⟩ := List.mem_map.mp h
  exact List.mem_map.mpr ⟨kv, List.mem_of_mem_filter hkv, hp⟩

theorem mem_values_dictInsert {α : Type} (d : List (String × α)) (k : String)
    (v w : α) (h : w ∈ dictValues (dictInsert d k v)) : w = v ∨ w ∈ dictValues d := by
  unfold dictValues at h ⊢
  obtain ⟨kv, hkv, hp⟩ := List.mem_map.mp h
  rcases mem_dictInsert d k v kv hkv with h2 | h2
  · left; rw [← hp, h2]
  · right; exact List.mem_map.mpr ⟨kv, h2, hp⟩

theorem pyInsertRun_mem :
    ∀ (x : Pod) (l lr : List Pod), pyInsertRun x l = some lr →
      ∀ p ∈ lr, p = x ∨ p ∈ l := by
  intro x l
  induction l with
  | nil =>
      intro lr h p hp
      simp only [pyInsertRun, Option.some.injEq] at h
      subst h
      simp at hp
      exact Or.inl hp
  | cons y ys ih =>
      intro lr h p hp
      simp only [pyInsertRun] at h
      cases hcmp : pyPrioNameLt (get_pod_priority y, y.name) (get_pod_priority x, x.name) with
      | none => rw [hcmp] at h; simp at h
      | some b =>
          rw [hcmp] at h
          cases b with
          | true =>
              cases hrec : pyInsertRun x ys with
              | none => rw [hrec] at h; simp at h
              | some rest =>
                  rw [hrec] at h
                  have h2 : y :: rest = lr := by simpa using h
                  subst h2
                  rcases List.mem_cons.mp hp with hp | hp
                  · exact Or.inr (hp ▸ List.mem_cons_self _ _)
                  · rcases ih rest hrec p hp with hp | hp
                    · exact Or.inl hp
                    · exact Or.inr (List.mem_cons_of_mem _ hp)
          | false =>
              have h2 : x :: y :: ys = lr := by simpa using h
              subst h2
              rcases List.mem_cons.mp hp with hp | hp
              · exact Or.inl hp
              · exact Or.inr hp

theorem pySortRun_mem :
    ∀ (l lr : List Pod), pySortRun l = some lr → ∀ p ∈ lr, p ∈ l := by
  intro l
  induction l with
  | nil =>
      intro lr h p hp
      simp only [pySortRun, Option.some.injEq] at h
      subst h
      simp at hp
  | cons x xs ih =>
      intro lr h p hp
      simp only [pySortRun] at h
      cases hrec : pySortRun xs with
      | none => rw [hrec] at h; simp at h
      | some s =>
          rw [hrec] at h
          have h2 : pyInsertRun x s = some lr := by simpa using h
          rcases pyInsertRun_mem x s lr h2 p hp with hp2 | hp2
          · exact hp2 ▸ List.mem_cons_self _ _
          · exact List.mem_cons_of_mem _ (ih s hrec p hp2)


theorem select_preempt_spec (gp : Option Int) :
    ∀ (n : Nat) (l ps : List Pod), select_preempt gp n l = .ok ps →
      ∀ p ∈ ps, p ∈ l ∧ ∃ pp gpv : Int, get_pod_priority p = some pp ∧
        gp = some gpv ∧ pp < gpv := by
  intro n
  induction n with
  | zero =>
      intro l ps h p hp
      simp only [select_preempt, PreemptOutcome.ok.injEq] at h
      subst h
      simp at hp
  | succ m ih =>
      intro l ps h p hp
      cases l with
      | nil => simp [select_preempt] at h
      | cons lowest rest =>
          simp only [select_preempt] at h
          cases hge : pyGeOpt (get_pod_priority lowest) gp with
          | none => rw [hge] at h; cases h
          | some b =>
              rw [hge] at h
              cases b with
              | true => simp at h
              | false =>
                  simp only at h
                  cases hrec : select_preempt gp m rest with
                  | err => rw [hrec] at h; cases h
                  | empty => rw [hrec] at h; cases h
                  | ok ps2 =>
                      rw [hrec] at h
                      simp only [PreemptOutcome.ok.injEq] at h
                      subst h
                      rcases List.mem_cons.mp hp with hp | hp
                      · refine ⟨by rw [hp]; exact List.mem_cons_self _ _, ?_⟩
                        rw [hp]
                        unfold pyGeOpt at hge
                        cases hpp : get_pod_priority lowest with
                        | none => rw [hpp] at hge; cases hge
                        | some pp =>
                            rw [hpp] at hge
                            cases hgp : gp with
                            | none => rw [hgp] at hge; cases hge
                            | some gpv =>
                                rw [hgp] at hge
                                simp only [Option.some.injEq] at hge
                                refine ⟨pp, gpv, rfl, rfl, ?_⟩
                                have : ¬(pp ≥ gpv) := by
                                  intro hc
                                  simp [hc] at hge
                                omega
                      · obtain ⟨hmem, hrest⟩ := ih rest ps2 hrec p hp
                        exact ⟨List.mem_cons_of_mem _ hmem, hrest⟩

theorem apply_preempt_evs (st : NodePodState) :
    ∀ (ps : List Pod) (availD : List (String × KNode)) (runD : List (String × Pod))
      (evs : List Eviction) (res : List (String × KNode) × List (String × Pod) × List Eviction),
      apply_preempt st availD runD evs ps = some res →
      res.2.2 = evs ++ ps.map (fun p => create_eviction st.ns p.name) := by
  intro ps
  induction ps with
  | nil =>
      intro availD runD evs res h
      simp only [apply_preempt, Option.some.injEq] at h
      subst h
      simp
  | cons p ps2 ih =>
      intro availD runD evs res h
      simp only [apply_preempt] at h
      cases hnn : p.nodeName with
      | none => rw [hnn] at h; cases h
      | some nn =>
          rw [hnn] at h
          simp only at h
          cases hg : st.getNode nn with
          | none => rw [hg] at h; cases h
          | some node =>
              rw [hg] at h
              simp only at h
              rw [ih _ _ _ _ h]
              simp

theorem preempt_phase_evs (gang : GangInfo) (availD : List (String × KNode))
    (runD : List (String × Pod)) (st : NodePodState) (pre : Bool) (pts : Int)
    (a2 : List (String × KNode)) (r2 : List (String × Pod)) (evs : List Eviction)
    (h : preempt_phase gang availD runD st pre pts = some (some (a2, r2, evs))) :
    ∀ e ∈ evs, e.ns = st.ns ∧ ∃ p, p ∈ dictValues runD ∧ p.name = e.podName ∧
      ∃ pp gp : Int, get_pod_priority p = some pp ∧ gang.priority = some gp ∧
        pp < gp := by
  unfold preempt_phase at h
  by_cases hpre : pre
  · rw [if_pos hpre] at h
    cases hsort : pySortRun (dictValues runD) with
    | none => rw [hsort] at h; cases h
    | some sortedRun =>
        rw [hsort] at h
        simp only at h
        by_cases hneed : pts - (availD.length : Int) > 0
        · rw [if_pos hneed] at h
          cases hsel : select_preempt gang.priority (pts - (availD.length : Int)).toNat
              sortedRun with
          | err => rw [hsel] at h; cases h
          | empty => rw [hsel] at h; cases h
          | ok toPre =>
              rw [hsel] at h
              simp only at h
              cases happ : apply_preempt st availD runD [] toPre with
              | none => rw [happ] at h; cases h
              | some s =>
                  rw [happ] at h
                  have hs : s = (a2, r2, evs) := by simpa using h
                  subst hs
                  intro e he
                  have hevs := apply_preempt_evs st toPre availD runD [] _ happ
                  simp only [List.nil_append] at hevs
                  rw [hevs] at he
                  obtain ⟨p, hpmem, hpe⟩ := List.mem_map.mp he
                  obtain ⟨hpsorted, pp, gpv, hpp, hgp, hlt⟩ :=
                    select_preempt_spec gang.priority _ sortedRun toPre hsel p hpmem
                  refine ⟨by rw [← hpe]; rfl, p, pySortRun_mem _ _ hsort p hpsorted,
                    by rw [← hpe]; rfl, pp, gpv, hpp, hgp, hlt⟩
        · rw [if_neg hneed] at h
          simp only [Option.some.injEq] at h
          cases h
          intro e he
          simp at he
  · rw [if_neg hpre] at h
    simp only [Option.some.injEq] at h
    cases h
    intro e he
    simp at he


theorem dictGet_mem {α : Type} :
    ∀ (l : List (String × α)) (k : String) (v : α),
      dictGet l k = some v → (k, v) ∈ l := by
  intro l
  induction l with
  | nil => intro k v h; simp [dictGet, List.lookup] at h
  | cons kv rest ih =>
      intro k v h
      obtain ⟨k0, v0⟩ := kv
      simp only [dictGet, List.lookup] at h
      by_cases hk : k == k0
      · rw [hk] at h
        simp only [Option.some.injEq] at h
        have hkeq : k = k0 := by simpa using hk
        subst hkeq
        subst h
        exact List.mem_cons_self _ _
      · rw [Bool.not_eq_true] at hk
        rw [hk] at h
        exact List.mem_cons_of_mem _ (ih k v h)

theorem gangGroups_pods_spec :
    ∀ (l : List Pod) (acc : List (String × List Pod)) (gp : String × List Pod)
      (q : Pod),
      gp ∈ l.foldl
        (fun d p =>
          let gname := podGroupName p
          match dictGet d gname with
          | some ps => dictInsert d gname (ps ++ [p])
          | none => dictInsert d gname [p]) acc →
      q ∈ gp.2 → (∃ gp0 ∈ acc, q ∈ gp0.2) ∨ q ∈ l := by
  intro l
  induction l with
  | nil =>
      intro acc gp q hgp hq
      exact Or.inl ⟨gp, hgp, hq⟩
  | cons p ps ih =>
      intro acc gp q hgp hq
      simp only [List.foldl_cons] at hgp
      rcases ih _ gp q hgp hq with hacc | hmem
      · obtain ⟨gp0, hgp0, hq0⟩ := hacc
        cases hget : dictGet acc (podGroupName p) with
        | some ps0 =>
            rw [hget] at hgp0
            simp only at hgp0
            rcases mem_dictInsert _ _ _ _ hgp0 with he | he
            · subst he
              rcases List.mem_append.mp hq0 with hin | hin
              · exact Or.inl ⟨(podGroupName p, ps0), dictGet_mem _ _ _ hget, hin⟩
              · simp at hin
                subst hin
                exact Or.inr (List.mem_cons_self _ _)
            · exact Or.inl ⟨gp0, he, hq0⟩
        | none =>
            rw [hget] at hgp0
            simp only at hgp0
            rcases mem_dictInsert _ _ _ _ hgp0 with he | he
            · subst he
              simp at hq0
              subst hq0
              exact Or.inr (List.mem_cons_self _ _)
            · exact Or.inl ⟨gp0, he, hq0⟩
      · exact Or.inr (List.mem_cons_of_mem _ hmem)

theorem get_gang_info_pods_spec (pods : List Pod)
    (gs : List (String × GangInfo)) (h : get_gang_info pods = some gs) :
    ∀ kg ∈ gs, ∀ p ∈ kg.2.pods, p ∈ pods := by
  intro kg hkg p hp
  unfold get_gang_info at h
  obtain ⟨gp, hgp, hf⟩ := mapM_mem_spec _ _ _ h kg hkg
  have hpods : kg.2.pods = gp.2 := by
    cases hma : gangMinAvailable gp.2 with
    | none => rw [hma] at hf; cases hf
    | some ma =>
        rw [hma] at hf
        cases hprio : pyMaxPriority (gp.2.map get_pod_priority) with
        | none => rw [hprio] at hf; simp at hf
        | some prio =>
            rw [hprio] at hf
            have : (gp.1, GangInfo.mk gp.1 ma gp.2 prio) = kg := by simpa using hf
            rw [← this]
  rw [hpods] at hp
  rcases gangGroups_pods_spec pods [] gp p hgp hp with habs | hm
  · simp at habs
  · exact hm


theorem bind_loop_run_values :
    ∀ (pairs : List (KNode × Pod)) (availD : List (String × KNode))
      (runD : List (String × Pod)) (bs : List Binding) (q : Pod),
      q ∈ dictValues (bind_loop availD runD bs pairs).2.1 →
      q ∈ dictValues runD ∨ ∃ pr ∈ pairs, q = pr.2 := by
  intro pairs
  induction pairs with
  | nil => intro availD runD bs q h; exact Or.inl h
  | cons pr rest ih =>
      intro availD runD bs q h
      obtain ⟨node, p⟩ := pr
      simp only [bind_loop] at h
      rcases ih _ _ _ q h with h2 | h2
      · rcases mem_values_dictInsert _ _ _ _ h2 with h3 | h3
        · exact Or.inr ⟨(node, p), List.mem_cons_self _ _, h3⟩
        · exact Or.inl h3
      · obtain ⟨pr2, hpr2, hq⟩ := h2
        exact Or.inr ⟨pr2, List.mem_cons_of_mem _ hpr2, hq⟩

theorem apply_preempt_run_values (st : NodePodState) :
    ∀ (ps : List Pod) (availD : List (String × KNode)) (runD : List (String × Pod))
      (evs : List Eviction)
      (res : List (String × KNode) × List (String × Pod) × List Eviction),
      apply_preempt st availD runD evs ps = some res →
      ∀ q ∈ dictValues res.2.1, q ∈ dictValues runD := by
  intro ps
  induction ps with
  | nil =>
      intro availD runD evs res h q hq
      simp only [apply_preempt, Option.some.injEq] at h
      subst h
      exact hq
  | cons p ps2 ih =>
      intro availD runD evs res h q hq
      simp only [apply_preempt] at h
      cases hnn : p.nodeName with
      | none => rw [hnn] at h; cases h
      | some nn =>
          rw [hnn] at h
          simp only at h
          cases hg : st.getNode nn with
          | none => rw [hg] at h; cases h
          | some node =>
              rw [hg] at h
              simp only at h
              exact mem_values_dictDel _ _ _ (ih _ _ _ _ h q hq)

theorem preempt_phase_run_values (gang : GangInfo) (availD : List (String × KNode))
    (runD : List (String × Pod)) (st : NodePodState) (pre : Bool) (pts : Int)
    (a2 : List (String × KNode)) (r2 : List (String × Pod)) (evs : List Eviction)
    (h : preempt_phase gang availD runD st pre pts = some (some (a2, r2, evs))) :
    ∀ q ∈ dictValues r2, q ∈ dictValues runD := by
  unfold preempt_phase at h
  by_cases hpre : pre
  · rw [if_pos hpre] at h
    cases hsort : pySortRun (dictValues runD) with
    | none => rw [hsort] at h; cases h
    | some sortedRun =>
        rw [hsort] at h
        simp only at h
        by_cases hneed : pts - (availD.length : Int) > 0
        · rw [if_pos hneed] at h
          cases hsel : select_preempt gang.priority (pts - (availD.length : Int)).toNat
              sortedRun with
          | err => rw [hsel] at h; cases h
          | empty => rw [hsel] at h; cases h
          | ok toPre =>
              rw [hsel] at h
              simp only at h
              cases happ : apply_preempt st availD runD [] toPre with
              | none => rw [happ] at h; cases h
              | some s =>
                  rw [happ] at h
                  have hs : s = (a2, r2, evs) := by simpa using h
                  subst hs
                  exact fun q hq => apply_preempt_run_values st toPre _ _ _ _ happ q hq
        · rw [if_neg hneed] at h
          have hs : (availD, runD, ([] : List Eviction)) = (a2, r2, evs) := by simpa using h
          intro q hq
          have : r2 = runD := by
            have := congrArg (fun t => t.2.1) hs
            simpa using this.symm
          rw [this] at hq
          exact hq
  · rw [if_neg hpre] at h
    have hs : (availD, runD, ([] : List Eviction)) = (a2, r2, evs) := by simpa using h
    intro q hq
    have : r2 = runD := by
      have := congrArg (fun t => t.2.1) hs
      simpa using this.symm
    rw [this] at hq
    exact hq

theorem process_gang_evictions_spec (gang : GangInfo) (avail : List KNode)
    (running : List Pod) (st : NodePodState) (pre : Bool)
    (res : GangSchedulingResult) (h : process_gang gang avail running st pre = some res) :
    ∀ e ∈ res.evictions, e.ns = st.ns ∧ ∃ p, p ∈ running ∧ p.name = e.podName ∧
      ∃ pp gp : Int, get_pod_priority p = some pp ∧ gang.priority = some gp ∧
        pp < gp := by
  simp only [process_gang] at h
  split at h
  · cases h; intro e he; simp at he
  · split at h
    · cases h; intro e he; simp at he
    · split at h
      · cases h
      · rename_i heq
        cases h; intro e he; simp at he
      · rename_i availD2 runD2 evs heq
        split at h
        · cases h; intro e he; simp at he
        · cases h
          intro e he
          obtain ⟨hns, p, hpmem, hrest⟩ := preempt_phase_evs _ _ _ _ _ _ _ _ _ heq e he
          exact ⟨hns, p, mem_values_dictOfList_pods running p hpmem, hrest⟩

theorem process_gang_running_spec (gang : GangInfo) (avail : List KNode)
    (running : List Pod) (st : NodePodState) (pre : Bool)
    (res : GangSchedulingResult) (h : process_gang gang avail running st pre = some res) :
    ∀ q ∈ res.running_pods, q ∈ running ∨ q ∈ gang.pods := by
  simp only [process_gang] at h
  split at h
  · cases h; intro q hq; exact Or.inl hq
  · split at h
    · cases h
      intro q hq
      exact Or.inl (mem_values_dictOfList_pods running q hq)
    · split at h
      · cases h
      · cases h; intro q hq; exact Or.inl hq
      · rename_i availD2 runD2 evs heq
        split at h
        · cases h; intro q hq; exact Or.inl hq
        · cases h
          intro q hq
          rcases bind_loop_run_values _ _ _ _ q hq with h2 | h2
          · exact Or.inl (mem_values_dictOfList_pods running q
              (preempt_phase_run_values _ _ _ _ _ _ _ _ _ heq q h2))
          · obtain ⟨pr, hpr, hq2⟩ := h2
            have h3 := (List.of_mem_zip hpr).2
            have h4 := List.mem_of_mem_take h3
            have h5 := List.mem_of_mem_filter h4
            rw [hq2]
            exact Or.inr h5


theorem pending_gangs_pods_spec (scheduler_name : String) (state : NodePodState)
    (pg : List GangInfo) (h : pending_gangs scheduler_name state = some pg) :
    ∀ g ∈ pg, ∀ p ∈ g.pods, p ∈ in_scope_pods scheduler_name state := by
  intro g hg p hp
  unfold pending_gangs at h
  cases hgi : get_gang_info (in_scope_pods scheduler_name state) with
  | none => rw [hgi] at h; cases h
  | some gs =>
      rw [hgi] at h
      have hpg : (dictValues gs).filter (fun g => g.pods.any (fun p => is_pending p)) = pg := by
        simpa using h
      rw [← hpg] at hg
      have hg2 := List.mem_of_mem_filter hg
      obtain ⟨kg, hkg, hke⟩ := List.mem_map.mp hg2
      exact get_gang_info_pods_spec _ gs hgi kg hkg p (by rw [hke]; exact hp)

theorem sortedPendingGangs_mem (scheduler_name : String) (state : NodePodState)
    (gl : List GangInfo) (h : sortedPendingGangs scheduler_name state = some gl) :
    ∃ pg, pending_gangs scheduler_name state = some pg ∧ ∀ g ∈ gl, g ∈ pg := by
  unfold sortedPendingGangs at h
  cases hpg : pending_gangs scheduler_name state with
  | none => rw [hpg] at h; cases h
  | some pg =>
      rw [hpg] at h
      cases hkeyed : pg.mapM (fun g => (get_gang_sort_key g).map (fun k => (k, g))) with
      | none =>
          simp only [Option.bind_eq_bind, Option.some_bind, hkeyed] at h
          cases h
      | some keyed =>
          simp only [Option.bind_eq_bind, Option.some_bind, hkeyed] at h
          have h2 : (sSort (fun a b => gangKeyLt a.1 b.1) keyed).map Prod.snd = gl := by
            simpa using h
          obtain ⟨hmap, hmem⟩ := keyed_mapM_spec pg keyed hkeyed
          refine ⟨pg, rfl, ?_⟩
          intro g hg
          rw [← h2] at hg
          obtain ⟨kg, hkg, hke⟩ := List.mem_map.mp hg
          have : kg ∈ keyed := (sSort_perm _ keyed).mem_iff.mp hkg
          rw [← hmap]
          exact List.mem_map.mpr ⟨kg, this, hke⟩

theorem schedule_fold_evictions_spec (st : NodePodState) (pre : Bool)
    (gangsAll : List GangInfo) (inscope : List Pod)
    (hgangspods : ∀ g ∈ gangsAll, ∀ p ∈ g.pods, p ∈ inscope) :
    ∀ (gangs : List GangInfo) (allB : List Binding) (allE : List Eviction)
      (curN : List KNode) (curP : List Pod) (out : List Binding × List Eviction),
      schedule_fold st pre gangs allB allE curN curP = some out →
      (∀ g ∈ gangs, g ∈ gangsAll) →
      (∀ p ∈ curP, p ∈ inscope) →
      (∀ e ∈ allE, e.ns = st.ns ∧ ∃ p, p ∈ inscope ∧ p.name = e.podName ∧
        ∃ g, g ∈ gangsAll ∧ ∃ pp gp : Int, get_pod_priority p = some pp ∧
          g.priority = some gp ∧ pp < gp) →
      ∀ e ∈ out.2, e.ns = st.ns ∧ ∃ p, p ∈ inscope ∧ p.name = e.podName ∧
        ∃ g, g ∈ gangsAll ∧ ∃ pp gp : Int, get_pod_priority p = some pp ∧
          g.priority = some gp ∧ pp < gp := by
  intro gangs
  induction gangs with
  | nil =>
      intro allB allE curN curP out h hg hp he
      simp only [schedule_fold, Option.some.injEq] at h
      subst h
      exact he
  | cons gang rest ih =>
      intro allB allE curN curP out h hg hp he
      simp only [schedule_fold] at h
      cases hpg : process_gang gang curN curP st pre with
      | none => rw [hpg] at h; cases h
      | some result =>
          rw [hpg] at h
          simp only at h
          have hgang : gang ∈ gangsAll := hg gang (List.mem_cons_self _ _)
          have hrest : ∀ g ∈ rest, g ∈ gangsAll :=
            fun g hgr => hg g (List.mem_cons_of_mem _ hgr)
          by_cases hb : result.bindings.isEmpty
          · rw [if_pos hb] at h
            exact ih _ _ _ _ out h hrest hp he
          · rw [if_neg hb] at h
            refine ih _ _ _ _ out h hrest ?_ ?_
            · intro q hq
              rcases process_gang_running_spec gang curN curP st pre result hpg q hq with
                h2 | h2
              · exact hp q h2
              · exact hgangspods gang hgang q h2
            · intro e heMem
              rcases List.mem_append.mp heMem with h2 | h2
              · exact he e h2
              · obtain ⟨hns, p, hpmem, hpname, pp, gp, hppv, hgpv, hlt⟩ :=
                  process_gang_evictions_spec gang curN curP st pre result hpg e h2
                exact ⟨hns, p, hp p hpmem, hpname, gang, hgang, pp, gp, hppv, hgpv, hlt⟩

/-- C2 (amended): every eviction returned by `schedule` names the snapshot's
namespace and targets an in-scope pod whose own `spec.priority` is strictly
below the aggregated `maxPriority` of one of the attempted pending gangs (the
gang whose placement caused the eviction). The source compares the victim's
own pod priority, not its group's max priority. -/
theorem c2_priority_respect_amended (scheduler_name : String)
    (state : NodePodState) (pre : Bool) (A : SchedulingActions)
    (h : schedule scheduler_name state pre = some A) :
    ∀ e ∈ A.evictions, e.ns = state.ns ∧
      ∃ p, p ∈ in_scope_pods scheduler_name state ∧ p.name = e.podName ∧
      ∃ gl, sortedPendingGangs scheduler_name state = some gl ∧
      ∃ g, g ∈ gl ∧ ∃ pp gp : Int, get_pod_priority p = some pp ∧
        g.priority = some gp ∧ pp < gp := by
  unfold schedule at h
  cases hg : sortedPendingGangs scheduler_name state with
  | none => rw [hg] at h; cases h
  | some gangs =>
      rw [hg] at h
      simp only at h
      cases hf : schedule_fold state pre gangs [] []
          (sorted_available_nodes scheduler_name state)
          (running_pods_of scheduler_name state) with
      | none => rw [hf] at h; cases h
      | some out =>
          rw [hf] at h
          simp only at h
          obtain ⟨allB, allE⟩ := out
          cases h
          intro e he
          obtain ⟨pg, hpg, hsub⟩ := sortedPendingGangs_mem scheduler_name state gangs hg
          have hgangspods : ∀ g ∈ gangs, ∀ p ∈ g.pods,
              p ∈ in_scope_pods scheduler_name state :=
            fun g hgm p hp =>
              pending_gangs_pods_spec scheduler_name state pg hpg g (hsub g hgm) p hp
          have hspec := schedule_fold_evictions_spec state pre gangs
            (in_scope_pods scheduler_name state) hgangspods gangs [] []
            (sorted_available_nodes scheduler_name state)
            (running_pods_of scheduler_name state) (allB, allE) hf
            (fun g hgm => hgm)
            (fun p hp => List.mem_of_mem_filter hp)
            (fun e he => by simp at he)
            e he
          obtain ⟨hns, p, hpmem, hpname, g, hgm, pp, gp, hppv, hgpv, hlt⟩ := hspec
          exact ⟨hns, p, hpmem, hpname, gangs, rfl, g, hgm, pp, gp, hppv, hgpv, hlt⟩

/-- Witness for C2 (amended) at the eviction of `o1` on `stateC2`. -/
theorem c2_priority_respect_witness :
    (⟨"ns", "o1"⟩ : Eviction).ns = stateC2.ns ∧
      ∃ p, p ∈ in_scope_pods "s" stateC2 ∧ p.name = (⟨"ns", "o1"⟩ : Eviction).podName ∧
      ∃ gl, sortedPendingGangs "s" stateC2 = some gl ∧
      ∃ g, g ∈ gl ∧ ∃ pp gp : Int, get_pod_priority p = some pp ∧
        g.priority = some gp ∧ pp < gp :=
  c2_priority_respect_amended "s" stateC2 true ⟨[⟨"ns", "o1"⟩], [⟨"p1", "n1"⟩]⟩
    rfl ⟨"ns", "o1"⟩ (by decide)


/-! ### Dict invariants for the bound-nodes claim (C10) -/


theorem keys_dictInsert {α : Type} :
    ∀ (d : List (String × α)) (k : String) (v : α),
      (dictInsert d k v).map Prod.fst =
        if k ∈ d.map Prod.fst then d.map Prod.fst else d.map Prod.fst ++ [k] := by
  intro d
  induction d with
  | nil => intro k v; simp [dictInsert]
  | cons kv0 rest ih =>
      intro k v
      obtain ⟨k0, v0⟩ := kv0
      simp only [dictInsert]
      by_cases h0 : k0 = k
      · subst h0
        simp
      · rw [if_neg h0]
        simp only [List.map_cons, ih, List.mem_cons]
        by_cases hmem : k ∈ rest.map Prod.fst
        · rw [if_pos hmem, if_pos (Or.inr hmem)]
        · rw [if_neg hmem, if_neg (by
            rintro (he | hm)
            · exact h0 he.symm
            · exact hmem hm)]
          simp

theorem dictOK_insert {α : Type} (nameOf : α → String) (d : List (String × α))
    (k : String) (v : α) (h : DictOK nameOf d) (hv : nameOf v = k) :
    DictOK nameOf (dictInsert d k v) := by
  constructor
  · rw [keys_dictInsert]
    by_cases hmem : k ∈ d.map Prod.fst
    · rw [if_pos hmem]; exact h.1
    · rw [if_neg hmem]
      simp only [List.nodup_append]
      exact ⟨h.1, List.nodup_singleton _, by simpa using hmem⟩
  · intro kv hkv
    rcases mem_dictInsert d k v kv hkv with he | he
    · rw [he]; exact hv
    · exact h.2 kv he

theorem dictOK_del {α : Type} (nameOf : α → String) (d : List (String × α))
    (k : String) (h : DictOK nameOf d) : DictOK nameOf (dictDel d k) := by
  constructor
  · exact List.Nodup.sublist ((List.filter_sublist d).map Prod.fst) h.1
  · intro kv hkv
    exact h.2 kv (List.mem_of_mem_filter hkv)

theorem dictOK_ofList {α : Type} (nameOf : α → String) (l : List α) :
    DictOK nameOf (dictOfList (l.map (fun x => (nameOf x, x)))) := by
  have L : ∀ (l2 : List α) (acc : List (String × α)), DictOK nameOf acc →
      DictOK nameOf ((l2.map (fun x => (nameOf x, x))).foldl
        (fun d kv => dictInsert d kv.1 kv.2) acc) := by
    intro l2
    induction l2 with
    | nil => intro acc hacc; exact hacc
    | cons x xs ih =>
        intro acc hacc
        simp only [List.map_cons, List.foldl_cons]
        exact ih _ (dictOK_insert nameOf acc (nameOf x) x hacc rfl)
  exact L l [] ⟨List.nodup_nil, by simp⟩

theorem mem_keys_dictDel {α : Type} (d : List (String × α)) (k : String)
    (kv : String × α) (h : kv ∈ dictDel d k) : kv ∈ d ∧ kv.1 ≠ k := by
  unfold dictDel at h
  refine ⟨List.mem_of_mem_filter h, ?_⟩
  have := List.of_mem_filter h
  simpa using this

theorem dictOfList_append_fresh {α : Type} :
    ∀ (l : List (String × α)) (acc : List (String × α)),
      (∀ k ∈ l.map Prod.fst, k ∉ acc.map Prod.fst) →
      (l.map Prod.fst).Nodup →
      l.foldl (fun d kv => dictInsert d kv.1 kv.2) acc = acc ++ l := by
  intro l
  induction l with
  | nil => intro acc hfresh hnd; simp
  | cons kv rest ih =>
      intro acc hfresh hnd
      obtain ⟨k, v⟩ := kv
      simp only [List.foldl_cons]
      have hins : dictInsert acc k v = acc ++ [(k, v)] := by
        have hk : k ∉ acc.map Prod.fst := hfresh k (by simp)
        clear hfresh hnd ih
        induction acc with
        | nil => rfl
        | cons kv0 rest0 ih0 =>
            obtain ⟨k0, v0⟩ := kv0
            simp only [dictInsert]
            rw [if_neg (by
              intro he
              exact hk (by simp [he]))]
            simp only [List.cons_append, List.cons.injEq, true_and]
            exact ih0 (by
              intro hc
              exact hk (by simp at hc ⊢; exact Or.inr hc))
      rw [hins, ih (acc ++ [(k, v)]) ?hfresh2 (by simpa using hnd.of_cons)]
      · simp
      case hfresh2 =>
        intro k2 hk2 hc
        rw [List.map_append] at hc
        rcases List.mem_append.mp hc with hc2 | hc2
        · exact hfresh k2 (by
            simp only [List.map_cons, List.mem_cons]
            exact Or.inr hk2) hc2
        · have hke : k2 = k := by simpa using hc2
          subst hke
          simp only [List.map_cons, List.nodup_cons] at hnd
          exact hnd.1 hk2

theorem dictOfList_eq_self {α : Type} (l : List (String × α))
    (h : (l.map Prod.fst).Nodup) : dictOfList l = l := by
  unfold dictOfList
  have := dictOfList_append_fresh l [] (by simp) h
  simpa using this

end Scheduler

namespace Scheduler

theorem getNode_some_eq (st : NodePodState) (k : String) (node : KNode)
    (h : st.getNode k = some node) : node = ⟨k⟩ := by
  rw [getNode_eq] at h
  by_cases hc : st.nodes.any (fun n => n.name == k)
  · rw [if_pos hc] at h
    exact (Option.some.injEq _ _ ▸ h).symm
  · rw [if_neg hc] at h
    cases h

theorem nodup_filterMap_inj {α β : Type} (f : α → Option β) :
    ∀ (l : List α), (l.filterMap f).Nodup →
      ∀ a ∈ l, ∀ b ∈ l, ∀ v, f a = some v → f b = some v → a = b := by
  intro l
  induction l with
  | nil => intro _ a ha; simp at ha
  | cons x xs ih =>
      intro hnd a ha b hb v hfa hfb
      rcases List.mem_cons.mp ha with ha | ha <;>
        rcases List.mem_cons.mp hb with hb | hb
      · rw [ha, hb]
      · exfalso
        have hfx : f x = some v := ha ▸ hfa
        have hvxs : v ∈ xs.filterMap f := List.mem_filterMap.mpr ⟨b, hb, hfb⟩
        rw [List.filterMap_cons, hfx] at hnd
        exact (List.nodup_cons.mp hnd).1 hvxs
      · exfalso
        have hfx : f x = some v := hb ▸ hfb
        have hvxs : v ∈ xs.filterMap f := List.mem_filterMap.mpr ⟨a, ha, hfa⟩
        rw [List.filterMap_cons, hfx] at hnd
        exact (List.nodup_cons.mp hnd).1 hvxs
      · refine ih ?_ a ha b hb v hfa hfb
        rw [List.filterMap_cons] at hnd
        cases hfx : f x with
        | none => rw [hfx] at hnd; exact hnd
        | some w => rw [hfx] at hnd; exact (List.nodup_cons.mp hnd).2

theorem apply_preempt_full_spec (st : NodePodState) :
    ∀ (ps : List Pod) (availD : List (String × KNode)) (runD : List (String × Pod))
      (evs0 : List Eviction)
      (a2 : List (String × KNode)) (r2 : List (String × Pod)) (e2 : List Eviction),
      apply_preempt st availD runD evs0 ps = some (a2, r2, e2) →
      (∀ kv ∈ a2, kv ∈ availD ∨
        ∃ p ∈ ps, p.nodeName = some kv.1 ∧ kv.2 = ⟨kv.1⟩) ∧
      (∀ kv ∈ r2, kv ∈ runD ∧ kv.1 ∉ ps.map Pod.name) ∧
      (∀ p ∈ ps, ∃ nn, p.nodeName = some nn) ∧
      (DictOK KNode.name availD → DictOK KNode.name a2) ∧
      (DictOK Pod.name runD → DictOK Pod.name r2) := by
  intro ps
  induction ps with
  | nil =>
      intro availD runD evs0 a2 r2 e2 h
      simp only [apply_preempt, Option.some.injEq, Prod.mk.injEq] at h
      obtain ⟨h1, h2, h3⟩ := h
      subst h1
      subst h2
      subst h3
      refine ⟨fun kv hkv => Or.inl hkv, fun kv hkv => ⟨hkv, by simp⟩, by simp,
        fun hd => hd, fun hd => hd⟩
  | cons p ps2 ih =>
      intro availD runD evs0 a2 r2 e2 h
      simp only [apply_preempt] at h
      cases hnn : p.nodeName with
      | none => rw [hnn] at h; cases h
      | some nn =>
          rw [hnn] at h
          simp only at h
          cases hg : st.getNode nn with
          | none => rw [hg] at h; cases h
          | some node =>
              rw [hg] at h
              simp only at h
              have hnode : node = ⟨nn⟩ := getNode_some_eq st nn node hg
              obtain ⟨ih1, ih2, ih3, ih4, ih5⟩ := ih _ _ _ _ _ _ h
              refine ⟨?_, ?_, ?_, ?_, ?_⟩
              · intro kv hkv
                rcases ih1 kv hkv with h2 | h2
                · rcases mem_dictInsert _ _ _ _ h2 with h3 | h3
                  · right
                    refine ⟨p, List.mem_cons_self _ _, ?_, ?_⟩
                    · rw [hnn, h3]
                    · rw [h3, hnode]
                  · exact Or.inl h3
                · obtain ⟨p2, hp2, hrest⟩ := h2
                  exact Or.inr ⟨p2, List.mem_cons_of_mem _ hp2, hrest⟩
              · intro kv hkv
                obtain ⟨h2, h3⟩ := ih2 kv hkv
                obtain ⟨h4, h5⟩ := mem_keys_dictDel _ _ _ h2
                refine ⟨h4, ?_⟩
                simp only [List.map_cons, List.mem_cons]
                rintro (hc | hc)
                · exact h5 hc
                · exact h3 hc
              · intro q hq
                rcases List.mem_cons.mp hq with hq | hq
                · exact ⟨nn, by rw [hq, hnn]⟩
                · exact ih3 q hq
              · intro hd
                refine ih4 (dictOK_insert _ _ _ _ hd ?_)
                rw [hnode]
              · intro hd
                exact ih5 (dictOK_del _ _ _ hd)

end Scheduler

namespace Scheduler

theorem bind_loop_bindings :
    ∀ (pairs : List (KNode × Pod)) (availD : List (String × KNode))
      (runD : List (String × Pod)) (bs : List Binding),
      (bind_loop availD runD bs pairs).2.2 =
        bs ++ pairs.map (fun pr => create_binding pr.2.name pr.1.name) := by
  intro pairs
  induction pairs with
  | nil => intro availD runD bs; simp [bind_loop]
  | cons pr rest ih =>
      intro availD runD bs
      obtain ⟨node, p⟩ := pr
      simp only [bind_loop, ih, List.map_cons]
      simp

theorem bind_loop_avail_spec :
    ∀ (pairs : List (KNode × Pod)) (availD : List (String × KNode))
      (runD : List (String × Pod)) (bs : List Binding),
      ∀ kv ∈ (bind_loop availD runD bs pairs).1,
        kv ∈ availD ∧ kv.1 ∉ pairs.map (fun pr => pr.1.name) := by
  intro pairs
  induction pairs with
  | nil => intro availD runD bs kv hkv; exact ⟨hkv, by simp⟩
  | cons pr rest ih =>
      intro availD runD bs kv hkv
      obtain ⟨node, p⟩ := pr
      simp only [bind_loop] at hkv
      obtain ⟨h1, h2⟩ := ih _ _ _ kv hkv
      obtain ⟨h3, h4⟩ := mem_keys_dictDel _ _ _ h1
      refine ⟨h3, ?_⟩
      simp only [List.map_cons, List.mem_cons]
      rintro (hc | hc)
      · exact h4 hc
      · exact h2 hc

theorem bind_loop_run_entry_spec :
    ∀ (pairs : List (KNode × Pod)) (availD : List (String × KNode))
      (runD : List (String × Pod)) (bs : List Binding),
      ∀ kv ∈ (bind_loop availD runD bs pairs).2.1,
        kv ∈ runD ∨ ∃ pr ∈ pairs, kv = (pr.2.name, pr.2) := by
  intro pairs
  induction pairs with
  | nil => intro availD runD bs kv hkv; exact Or.inl hkv
  | cons pr rest ih =>
      intro availD runD bs kv hkv
      obtain ⟨node, p⟩ := pr
      simp only [bind_loop] at hkv
      rcases ih _ _ _ kv hkv with h1 | h1
      · rcases mem_dictInsert _ _ _ _ h1 with h2 | h2
        · exact Or.inr ⟨(node, p), List.mem_cons_self _ _, h2⟩
        · exact Or.inl h2
      · obtain ⟨pr2, hpr2, he⟩ := h1
        exact Or.inr ⟨pr2, List.mem_cons_of_mem _ hpr2, he⟩

theorem bind_loop_dictOK :
    ∀ (pairs : List (KNode × Pod)) (availD : List (String × KNode))
      (runD : List (String × Pod)) (bs : List Binding),
      DictOK KNode.name availD → DictOK Pod.name runD →
      DictOK KNode.name (bind_loop availD runD bs pairs).1 ∧
        DictOK Pod.name (bind_loop availD runD bs pairs).2.1 := by
  intro pairs
  induction pairs with
  | nil => intro availD runD bs h1 h2; exact ⟨h1, h2⟩
  | cons pr rest ih =>
      intro availD runD bs h1 h2
      obtain ⟨node, p⟩ := pr
      simp only [bind_loop]
      exact ih _ _ _ (dictOK_del _ _ _ h1) (dictOK_insert _ _ _ _ h2 rfl)

theorem values_names_eq_keys {α : Type} (nameOf : α → String)
    (d : List (String × α)) (h : DictOK nameOf d) :
    (dictValues d).map nameOf = d.map Prod.fst := by
  unfold dictValues
  rw [List.map_map]
  exact List.map_congr_left (fun kv hkv => h.2 kv hkv)

theorem preempt_phase_full_spec (gang : GangInfo) (availD : List (String × KNode))
    (runD : List (String × Pod)) (st : NodePodState) (pre : Bool) (pts : Int)
    (a2 : List (String × KNode)) (r2 : List (String × Pod)) (evs : List Eviction)
    (h : preempt_phase gang availD runD st pre pts = some (some (a2, r2, evs))) :
    ∃ toPre : List Pod,
      (∀ p ∈ toPre, p ∈ dictValues runD) ∧
      evs = toPre.map (fun p => create_eviction st.ns p.name) ∧
      (∀ p ∈ toPre, ∃ nn, p.nodeName = some nn) ∧
      (∀ kv ∈ a2, kv ∈ availD ∨
        ∃ p ∈ toPre, p.nodeName = some kv.1 ∧ kv.2 = ⟨kv.1⟩) ∧
      (∀ kv ∈ r2, kv ∈ runD ∧ kv.1 ∉ toPre.map Pod.name) ∧
      (DictOK KNode.name availD → DictOK KNode.name a2) ∧
      (DictOK Pod.name runD → DictOK Pod.name r2) := by
  unfold preempt_phase at h
  by_cases hpre : pre
  · rw [if_pos hpre] at h
    cases hsort : pySortRun (dictValues runD) with
    | none => rw [hsort] at h; cases h
    | some sortedRun =>
        rw [hsort] at h
        simp only at h
        by_cases hneed : pts - (availD.length : Int) > 0
        · rw [if_pos hneed] at h
          cases hsel : select_preempt gang.priority (pts - (availD.length : Int)).toNat
              sortedRun with
          | err => rw [hsel] at h; cases h
          | empty => rw [hsel] at h; cases h
          | ok toPre =>
              rw [hsel] at h
              simp only at h
              cases happ : apply_preempt st availD runD [] toPre with
              | none => rw [happ] at h; cases h
              | some s =>
                  rw [happ] at h
                  have hs : s = (a2, r2, evs) := by simpa using h
                  subst hs
                  obtain ⟨hA1, hA2, hA3, hA4, hA5⟩ :=
                    apply_preempt_full_spec st toPre availD runD [] a2 r2 evs happ
                  have hevs := apply_preempt_evs st toPre availD runD [] (a2, r2, evs) happ
                  simp only [List.nil_append] at hevs
                  refine ⟨toPre, ?_, hevs, hA3, hA1, hA2, hA4, hA5⟩
                  intro p hp
                  exact pySortRun_mem _ _ hsort p
                    ((select_preempt_spec gang.priority _ _ _ hsel p hp).1)
        · rw [if_neg hneed] at h
          have hs : (availD, runD, ([] : List Eviction)) = (a2, r2, evs) := by
            simpa using h
          rw [Prod.mk.injEq, Prod.mk.injEq] at hs
          obtain ⟨e1, e2, e3⟩ := hs
          subst e1
          subst e2
          subst e3
          exact ⟨[], by simp, by simp, by simp, fun kv hkv => Or.inl hkv,
            fun kv hkv => ⟨hkv, by simp⟩, fun hd => hd, fun hd => hd⟩
  · rw [if_neg hpre] at h
    have hs : (availD, runD, ([] : List Eviction)) = (a2, r2, evs) := by simpa using h
    rw [Prod.mk.injEq, Prod.mk.injEq] at hs
    obtain ⟨e1, e2, e3⟩ := hs
    subst e1
    subst e2
    subst e3
    exact ⟨[], by simp, by simp, by simp, fun kv hkv => Or.inl hkv,
      fun kv hkv => ⟨hkv, by simp⟩, fun hd => hd, fun hd => hd⟩

end Scheduler

namespace Scheduler


theorem values_map_pair {α : Type} (nameOf : α → String) (l : List α) :
    dictValues (l.map (fun x => (nameOf x, x))) = l := by
  unfold dictValues
  rw [List.map_map]
  exact List.map_id _

theorem keys_map_pair {α : Type} (nameOf : α → String) (l : List α) :
    (l.map (fun x => (nameOf x, x))).map Prod.fst = l.map nameOf := by
  rw [List.map_map]
  rfl

end Scheduler

namespace Scheduler


theorem c10_main_branch (st : NodePodState) (runX : List Pod) (gang : GangInfo)
    (allB : List Binding) (allE : List Eviction) (curN : List KNode)
    (curP : List Pod) (pre : Bool) (pts : Int)
    (availD2 : List (String × KNode)) (runD2 : List (String × Pod))
    (evs : List Eviction) (k : Nat) (pend : List Pod)
    (hbUniq : ∀ r1 ∈ runX, ∀ r2 ∈ runX, ∀ nn : String,
      r1.nodeName = some nn → r2.nodeName = some nn → r1 = r2)
    (hpend : ∀ p ∈ pend, is_pending p = true ∧ p ∈ gang.pods)
    (hgangPending : ∀ p ∈ gang.pods, is_pending p = true → p.nodeName = none)
    (hk_avail : k ≤ (dictValues availD2).length) (hk_pend : k ≤ pend.length)
    (heq : preempt_phase gang (curN.map (fun n => (n.name, n)))
      (curP.map (fun p => (p.name, p))) st pre pts = some (some (availD2, runD2, evs)))
    (I1 : ∀ n ∈ curN, ∀ r ∈ runX, r.nodeName = some n.name →
      r.name ∈ allE.map Eviction.podName)
    (I2 : ∀ b ∈ allB, ∀ r ∈ runX, r.nodeName = some b.nodeName →
      r.name ∈ allE.map Eviction.podName)
    (I3 : (allB.map Binding.nodeName).Nodup)
    (I4 : ∀ b ∈ allB, b.nodeName ∉ curN.map KNode.name)
    (I5 : (curN.map KNode.name).Nodup)
    (I6 : ∀ p ∈ curP, (p ∈ runX ∧ p.name ∉ allE.map Eviction.podName ∧
        (∀ b ∈ allB, some b.nodeName ≠ p.nodeName) ∧
        (∀ n ∈ curN, some n.name ≠ p.nodeName)) ∨ p.nodeName = none)
    (I7 : (curP.map Pod.name).Nodup) :
    C10Inv runX
      (allB ++ (bind_loop availD2 runD2 []
        (((dictValues availD2).take k).zip (pend.take k))).2.2)
      (allE ++ evs)
      (dictValues (bind_loop availD2 runD2 []
        (((dictValues availD2).take k).zip (pend.take k))).1)
      (dictValues (bind_loop availD2 runD2 []
        (((dictValues availD2).take k).zip (pend.take k))).2.1) := by
  have hNkeys : ((curN.map (fun n => (n.name, n))).map Prod.fst).Nodup := by
    rw [keys_map_pair]; exact I5
  have hPkeys : ((curP.map (fun p => (p.name, p))).map Prod.fst).Nodup := by
    rw [keys_map_pair]; exact I7
  have hAvailOK : DictOK KNode.name (curN.map (fun n => (n.name, n))) := by
    rw [← dictOfList_eq_self _ hNkeys]; exact dictOK_ofList _ _
  have hRunOK : DictOK Pod.name (curP.map (fun p => (p.name, p))) := by
    rw [← dictOfList_eq_self _ hPkeys]; exact dictOK_ofList _ _
  obtain ⟨toPre, htoPre_mem, hevs, htoPre_nn, hA2, hR2, hOKa2, hOKr2⟩ :=
    preempt_phase_full_spec gang _ _ st pre pts availD2 runD2 evs heq
  rw [values_map_pair] at htoPre_mem
  have hOKa2x : DictOK KNode.name availD2 := hOKa2 hAvailOK
  have hOKr2x : DictOK Pod.name runD2 := hOKr2 hRunOK
  have hevsNames : evs.map Eviction.podName = toPre.map Pod.name := by
    rw [hevs, List.map_map]; rfl
  have hPreFacts : ∀ p ∈ toPre, ∃ nn, p.nodeName = some nn ∧ p ∈ runX ∧
      p.name ∉ allE.map Eviction.podName ∧ (∀ b ∈ allB, b.nodeName ≠ nn) ∧
      (∀ n ∈ curN, n.name ≠ nn) := by
    intro p hp
    obtain ⟨nn, hnn⟩ := htoPre_nn p hp
    rcases I6 p (htoPre_mem p hp) with ⟨hrx, hnE, hnB, hnN⟩ | hnone
    · refine ⟨nn, hnn, hrx, hnE, ?_, ?_⟩
      · intro b hb hc
        exact hnB b hb (by rw [hnn, hc])
      · intro n hn hc
        exact hnN n hn (by rw [hnn, hc])
    · rw [hnone] at hnn; cases hnn
  have hA2val : ∀ n ∈ dictValues availD2,
      n ∈ curN ∨ ∃ p ∈ toPre, p.nodeName = some n.name := by
    intro n hn
    obtain ⟨kv, hkv, hsnd⟩ := List.mem_map.mp hn
    rcases hA2 kv hkv with hc | ⟨p, hp, hpnn, hkv2⟩
    · left
      obtain ⟨m, hm, hme⟩ := List.mem_map.mp hc
      have : kv.2 = m := by rw [← hme]
      rw [← hsnd, this]
      exact hm
    · right
      refine ⟨p, hp, ?_⟩
      rw [← hsnd, hkv2]
      exact hpnn
  have hA2clean : ∀ n ∈ dictValues availD2, ∀ r ∈ runX, r.nodeName = some n.name →
      r.name ∈ (allE ++ evs).map Eviction.podName := by
    intro n hn r hr hrnn
    rcases hA2val n hn with hc | ⟨p, hp, hpnn⟩
    · rw [List.map_append]
      exact List.mem_append_left _ (I1 n hc r hr hrnn)
    · obtain ⟨nn, hnn, hprx, _, _, _⟩ := hPreFacts p hp
      have hrp : r = p := hbUniq r hr p hprx n.name hrnn hpnn
      rw [List.map_append]
      refine List.mem_append_right _ ?_
      rw [hevsNames, hrp]
      exact List.mem_map.mpr ⟨p, hp, rfl⟩
  have hA2names : (dictValues availD2).map KNode.name = availD2.map Prod.fst :=
    values_names_eq_keys _ _ hOKa2x
  have hA2nd : ((dictValues availD2).map KNode.name).Nodup := by
    rw [hA2names]; exact hOKa2x.1
  have hA2notB : ∀ b ∈ allB, ∀ n ∈ dictValues availD2, n.name ≠ b.nodeName := by
    intro b hb n hn hcc
    rcases hA2val n hn with hc | ⟨p, hp, hpnn⟩
    · exact I4 b hb (hcc ▸ List.mem_map.mpr ⟨n, hc, rfl⟩)
    · obtain ⟨nn, hnn, _, _, hnB, _⟩ := hPreFacts p hp
      have hne : nn = n.name := by
        rw [hnn] at hpnn
        exact Option.some.inj hpnn
      exact hnB b hb (by rw [hne, hcc])
  have hlen1 : ((dictValues availD2).take k).length = k := by
    rw [List.length_take]
    omega
  have hlen2 : (pend.take k).length = k := by
    rw [List.length_take]
    omega
  have hfst : (((dictValues availD2).take k).zip (pend.take k)).map Prod.fst =
      (dictValues availD2).take k :=
    List.map_fst_zip _ _ (by omega)
  have hsnd : (((dictValues availD2).take k).zip (pend.take k)).map Prod.snd =
      pend.take k :=
    List.map_snd_zip _ _ (by omega)
  have hnewB : (bind_loop availD2 runD2 []
      (((dictValues availD2).take k).zip (pend.take k))).2.2 =
      (((dictValues availD2).take k).zip (pend.take k)).map
        (fun pr => create_binding pr.2.name pr.1.name) := by
    rw [bind_loop_bindings]
    simp
  have hnewBnodes : ((bind_loop availD2 runD2 []
      (((dictValues availD2).take k).zip (pend.take k))).2.2).map Binding.nodeName =
      ((dictValues availD2).take k).map KNode.name := by
    rw [hnewB, List.map_map]
    have hfun : (Binding.nodeName ∘ fun pr : KNode × Pod =>
        create_binding pr.2.name pr.1.name) = (KNode.name ∘ Prod.fst) := rfl
    rw [hfun, ← List.map_map, hfst]
  obtain ⟨hOKa3, hOKr3⟩ := bind_loop_dictOK
    (((dictValues availD2).take k).zip (pend.take k)) availD2 runD2 [] hOKa2x hOKr2x
  have hSurvive : ∀ q ∈ dictValues (bind_loop availD2 runD2 []
      (((dictValues availD2).take k).zip (pend.take k))).2.1,
      (q ∈ curP ∧ q.name ∉ toPre.map Pod.name) ∨
      (is_pending q = true ∧ q ∈ gang.pods) := by
    intro q hq
    obtain ⟨kv, hkv, hqsnd⟩ := List.mem_map.mp hq
    rcases bind_loop_run_entry_spec _ _ _ _ kv hkv with hc | ⟨pr, hpr, hkve⟩
    · obtain ⟨hc1, hc2⟩ := hR2 kv hc
      obtain ⟨p0, hp0, hp0e⟩ := List.mem_map.mp hc1
      left
      have hqname : q.name = kv.1 := by
        rw [← hqsnd]
        exact hOKr2x.2 kv hc
      constructor
      · have he2 : kv.2 = p0 := by rw [← hp0e]
        rw [← hqsnd, he2]
        exact hp0
      · rw [hqname]
        exact hc2
    · right
      have hq2 : q = pr.2 := by rw [← hqsnd, hkve]
      have := (List.of_mem_zip hpr).2
      have hqpend : pr.2 ∈ pend := List.mem_of_mem_take this
      obtain ⟨hqp, hqg⟩ := hpend pr.2 hqpend
      rw [hq2]
      exact ⟨hqp, hqg⟩
  have hpairsNames : (((dictValues availD2).take k).zip (pend.take k)).map
      (fun pr => pr.1.name) = ((dictValues availD2).take k).map KNode.name := by
    have hfun : (fun pr : KNode × Pod => pr.1.name) = (KNode.name ∘ Prod.fst) := rfl
    rw [hfun, ← List.map_map, hfst]
  have hBoundNd : (((dictValues availD2).take k).map KNode.name).Nodup :=
    List.Nodup.sublist ((List.take_sublist k (dictValues availD2)).map KNode.name) hA2nd
  have hBoundSub : ∀ x ∈ ((dictValues availD2).take k).map KNode.name,
      ∃ n ∈ dictValues availD2, n.name = x := by
    intro x hx
    obtain ⟨n, hn, hne⟩ := List.mem_map.mp hx
    exact ⟨n, List.mem_of_mem_take hn, hne⟩
  have hCurN2 : ∀ n ∈ dictValues (bind_loop availD2 runD2 []
      (((dictValues availD2).take k).zip (pend.take k))).1,
      n ∈ dictValues availD2 ∧
        n.name ∉ ((dictValues availD2).take k).map KNode.name := by
    intro n hn
    obtain ⟨kv, hkv, hsnd2⟩ := List.mem_map.mp hn
    obtain ⟨hin, hnotin⟩ := bind_loop_avail_spec _ _ _ _ kv hkv
    have hname : n.name = kv.1 := by
      rw [← hsnd2]
      exact hOKa2x.2 kv hin
    constructor
    · rw [← hsnd2]
      exact List.mem_map.mpr ⟨kv, hin, rfl⟩
    · rw [hname, ← hpairsNames]
      exact hnotin
  have hNewBmem : ∀ b ∈ (bind_loop availD2 runD2 []
      (((dictValues availD2).take k).zip (pend.take k))).2.2,
      b.nodeName ∈ ((dictValues availD2).take k).map KNode.name := by
    intro b hb
    rw [← hnewBnodes]
    exact List.mem_map.mpr ⟨b, hb, rfl⟩
  refine ⟨?_, ?_, ?_, ?_, ?_, ?_, ?_⟩
  · intro n hn r hr hrnn
    exact hA2clean n (hCurN2 n hn).1 r hr hrnn
  · intro b hb r hr hrnn
    rcases List.mem_append.mp hb with hb2 | hb2
    · rw [List.map_append]
      exact List.mem_append_left _ (I2 b hb2 r hr hrnn)
    · obtain ⟨n, hnv, hne⟩ := hBoundSub _ (hNewBmem b hb2)
      exact hA2clean n hnv r hr (by rw [hrnn, hne])
  · rw [List.map_append, hnewBnodes]
    refine List.Nodup.append I3 hBoundNd ?_
    intro x hx1 hx2
    obtain ⟨b, hb, hbe⟩ := List.mem_map.mp hx1
    obtain ⟨n, hnv, hne⟩ := hBoundSub x hx2
    exact hA2notB b hb n hnv (by rw [hne, hbe])
  · intro b hb hc
    obtain ⟨n2, hn2, hn2e⟩ := List.mem_map.mp hc
    rcases List.mem_append.mp hb with hb2 | hb2
    · exact hA2notB b hb2 n2 (hCurN2 n2 hn2).1 hn2e
    · exact (hCurN2 n2 hn2).2 (by rw [hn2e]; exact hNewBmem b hb2)
  · rw [values_names_eq_keys _ _ hOKa3]
    exact hOKa3.1
  · intro q hq
    rcases hSurvive q hq with ⟨hqcurP, hqnotpre⟩ | ⟨hqp, hqg⟩
    · rcases I6 q hqcurP with ⟨hrx, hnE, hnB, hnN⟩ | hnone
      · left
        have hq_not_a2 : ∀ n ∈ dictValues availD2, some n.name ≠ q.nodeName := by
          intro n hnv hc
          rcases hA2val n hnv with hcN | ⟨p, hp, hpnn⟩
          · exact hnN n hcN hc
          · obtain ⟨nn, hnn, hprx, _, _, _⟩ := hPreFacts p hp
            have hqp2 : q = p := hbUniq q hrx p hprx n.name hc.symm hpnn
            exact hqnotpre (by rw [hqp2]; exact List.mem_map.mpr ⟨p, hp, rfl⟩)
        refine ⟨hrx, ?_, ?_, ?_⟩
        · rw [List.map_append]
          intro hc
          rcases List.mem_append.mp hc with hc2 | hc2
          · exact hnE hc2
          · rw [hevsNames] at hc2
            exact hqnotpre hc2
        · intro b hb
          rcases List.mem_append.mp hb with hb2 | hb2
          · exact hnB b hb2
          · obtain ⟨n, hnv, hne⟩ := hBoundSub _ (hNewBmem b hb2)
            rw [← hne]
            exact hq_not_a2 n hnv
        · intro n hn
          exact hq_not_a2 n (hCurN2 n hn).1
      · exact Or.inr hnone
    · exact Or.inr (hgangPending q hqg hqp)
  · rw [values_names_eq_keys _ _ hOKr3]
    exact hOKr3.1

end Scheduler

namespace Scheduler

theorem process_gang_c10_spec (gang : GangInfo) (curN : List KNode)
    (curP : List Pod) (st : NodePodState) (pre : Bool) (runX : List Pod)
    (allB : List Binding) (allE : List Eviction)
    (hbUniq : ∀ r1 ∈ runX, ∀ r2 ∈ runX, ∀ nn : String,
      r1.nodeName = some nn → r2.nodeName = some nn → r1 = r2)
    (hgangPending : ∀ p ∈ gang.pods, is_pending p = true → p.nodeName = none)
    (hinv : C10Inv runX allB allE curN curP) (res : GangSchedulingResult)
    (h : process_gang gang curN curP st pre = some res) :
    C10Inv runX (allB ++ res.bindings) (allE ++ res.evictions)
      res.available_nodes res.running_pods := by
  obtain ⟨I1, I2, I3, I4, I5, I6, I7⟩ := hinv
  have hNkeys : ((curN.map (fun n => (n.name, n))).map Prod.fst).Nodup := by
    rw [keys_map_pair]; exact I5
  have hPkeys : ((curP.map (fun p => (p.name, p))).map Prod.fst).Nodup := by
    rw [keys_map_pair]; exact I7
  have hAvailId : dictOfList (curN.map (fun n => (n.name, n))) =
      curN.map (fun n => (n.name, n)) := dictOfList_eq_self _ hNkeys
  have hRunId : dictOfList (curP.map (fun p => (p.name, p))) =
      curP.map (fun p => (p.name, p)) := dictOfList_eq_self _ hPkeys
  simp only [process_gang, hAvailId, hRunId] at h
  split at h
  · cases h
    exact ⟨by simpa using I1, by simpa using I2, by simpa using I3,
      by simpa using I4, I5, by simpa using I6, I7⟩
  · split at h
    · cases h
      simp only [values_map_pair]
      exact ⟨by simpa using I1, by simpa using I2, by simpa using I3,
        by simpa using I4, I5, by simpa using I6, I7⟩
    · split at h
      · cases h
      · cases h
        exact ⟨by simpa using I1, by simpa using I2, by simpa using I3,
          by simpa using I4, I5, by simpa using I6, I7⟩
      · rename_i availD2 runD2 evs heq
        split at h
        · cases h
          exact ⟨by simpa using I1, by simpa using I2, by simpa using I3,
            by simpa using I4, I5, by simpa using I6, I7⟩
        · rename_i hlen
          cases h
          rename_i hpendne hpts0 xjunk
          refine c10_main_branch st runX gang allB allE curN curP pre
            (((List.filter (fun p => is_pending p) gang.pods).length : Int) ⊓
              (gang.min_available - ((List.filter (fun p => dictContains
                (List.map (fun p => (p.name, p)) curP) p.name) gang.pods).length : Int)))
            availD2 runD2 evs
            ((((List.filter (fun p => is_pending p) gang.pods).length : Int) ⊓
              (gang.min_available - ((List.filter (fun p => dictContains
                (List.map (fun p => (p.name, p)) curP) p.name) gang.pods).length : Int))).toNat)
            (List.filter (fun p => is_pending p) gang.pods)
            hbUniq ?_ hgangPending ?_ ?_ heq I1 I2 I3 I4 I5 I6 I7
          · intro p hp
            exact ⟨List.of_mem_filter hp, List.mem_of_mem_filter hp⟩
          · rw [inf_eq_min] at hlen ⊢
            simp only [dictValues, List.length_map]
            omega
          · rw [inf_eq_min]
            have h2 := min_le_left ((List.filter (fun p => is_pending p) gang.pods).length : Int)
              (gang.min_available -
                ((List.filter (fun p => dictContains
                  (List.map (fun p => (p.name, p)) curP) p.name) gang.pods).length : Int))
            omega

end Scheduler

namespace Scheduler

theorem schedule_fold_c10 (st : NodePodState) (pre : Bool) (runX : List Pod)
    (hbUniq : ∀ r1 ∈ runX, ∀ r2 ∈ runX, ∀ nn : String,
      r1.nodeName = some nn → r2.nodeName = some nn → r1 = r2) :
    ∀ (gangs : List GangInfo) (allB : List Binding) (allE : List Eviction)
      (curN : List KNode) (curP : List Pod) (out : List Binding × List Eviction),
      schedule_fold st pre gangs allB allE curN curP = some out →
      (∀ g ∈ gangs, ∀ p ∈ g.pods, is_pending p = true → p.nodeName = none) →
      C10Inv runX allB allE curN curP →
      (out.1.map Binding.nodeName).Nodup ∧
      ∀ b ∈ out.1, ∀ r ∈ runX, r.nodeName = some b.nodeName →
        r.name ∈ out.2.map Eviction.podName := by
  intro gangs
  induction gangs with
  | nil =>
      intro allB allE curN curP out h hpend hinv
      simp only [schedule_fold, Option.some.injEq] at h
      subst h
      exact ⟨hinv.2.2.1, hinv.2.1⟩
  | cons gang rest ih =>
      intro allB allE curN curP out h hpend hinv
      simp only [schedule_fold] at h
      cases hpg : process_gang gang curN curP st pre with
      | none => rw [hpg] at h; cases h
      | some result =>
          rw [hpg] at h
          simp only at h
          have hpendrest : ∀ g ∈ rest, ∀ p ∈ g.pods, is_pending p = true →
              p.nodeName = none :=
            fun g hg => hpend g (List.mem_cons_of_mem _ hg)
          by_cases hb : result.bindings.isEmpty
          · rw [if_pos hb] at h
            exact ih _ _ _ _ out h hpendrest hinv
          · rw [if_neg hb] at h
            exact ih _ _ _ _ out h hpendrest
              (process_gang_c10_spec gang curN curP st pre runX allB allE hbUniq
                (hpend gang (List.mem_cons_self _ _)) hinv result hpg)

/-- C10 (amended): for snapshots that also satisfy the spec's integrity
invariants — unique node names, unique pod names, Running pods of the
scheduler on pairwise-distinct listed nodes, and Pending pods of the
scheduler carrying no `nodeName` — every node named in the returned bindings
either hosts no Running pod of the scheduler in the snapshot or that host's
name appears in the returned evictions, and no node is bound twice. Without
the extra invariants the claim is false (see the counterexample): a Pending
pod with a stale `nodeName` can be bound and then preempted, releasing a node
whose true occupant is never evicted. -/
theorem c10_bound_nodes_amended (scheduler_name : String) (state : NodePodState)
    (pre : Bool) (A : SchedulingActions)
    (h : schedule scheduler_name state pre = some A)
    (hrun_nodes : ∀ r ∈ running_pods_of scheduler_name state,
      ∃ n ∈ state.nodes, r.nodeName = some n.name)
    (hrunU : ((running_pods_of scheduler_name state).filterMap Pod.nodeName).Nodup)
    (hpendNoNode : ∀ p ∈ in_scope_pods scheduler_name state,
      is_pending p = true → p.nodeName = none)
    (hnodesU : (state.nodes.map KNode.name).Nodup)
    (hpodsU : (state.pods.map Pod.name).Nodup) :
    (A.bindings.map Binding.nodeName).Nodup ∧
    ∀ b ∈ A.bindings, ∀ r ∈ running_pods_of scheduler_name state,
      r.nodeName = some b.nodeName → r.name ∈ A.evictions.map Eviction.podName := by
  have hbUniq := nodup_filterMap_inj Pod.nodeName
    (running_pods_of scheduler_name state) hrunU
  unfold schedule at h
  cases hg : sortedPendingGangs scheduler_name state with
  | none => rw [hg] at h; cases h
  | some gangs =>
      rw [hg] at h
      simp only at h
      cases hf : schedule_fold state pre gangs [] []
          (sorted_available_nodes scheduler_name state)
          (running_pods_of scheduler_name state) with
      | none => rw [hf] at h; cases h
      | some out =>
          rw [hf] at h
          simp only at h
          obtain ⟨allB, allE⟩ := out
          cases h
          have hnotocc : ∀ n ∈ sorted_available_nodes scheduler_name state,
              n.name ∉ occupied_node_names scheduler_name state := by
            intro n hn
            have hmem := (sSort_perm nodeNameLt _).mem_iff.mp hn
            have hfilt := List.of_mem_filter hmem
            simpa using hfilt
          have hoccradical : ∀ n ∈ sorted_available_nodes scheduler_name state,
              ∀ r ∈ running_pods_of scheduler_name state,
              r.nodeName ≠ some n.name := by
            intro n hn r hr hc
            exact hnotocc n hn (List.mem_filterMap.mpr ⟨r, hr, hc⟩)
          have hgangspods : ∀ g ∈ gangs, ∀ p ∈ g.pods, is_pending p = true →
              p.nodeName = none := by
            obtain ⟨pg, hpg, hsub⟩ := sortedPendingGangs_mem scheduler_name state gangs hg
            intro g hgm p hp hpending
            exact hpendNoNode p
              (pending_gangs_pods_spec scheduler_name state pg hpg g (hsub g hgm) p hp)
              hpending
          have hinv0 : C10Inv (running_pods_of scheduler_name state) [] []
              (sorted_available_nodes scheduler_name state)
              (running_pods_of scheduler_name state) := by
            refine ⟨?_, by simp, by simp, by simp, ?_, ?_, ?_⟩
            · intro n hn r hr hrnn
              exact absurd hrnn (hoccradical n hn r hr)
            · have hperm : ((sorted_available_nodes scheduler_name state).map
                  KNode.name).Perm ((state.nodes.filter (fun n =>
                    !(occupied_node_names scheduler_name state).contains n.name)).map
                    KNode.name) :=
                (sSort_perm nodeNameLt _).map KNode.name
              refine hperm.nodup_iff.mpr ?_
              exact List.Nodup.sublist
                ((List.filter_sublist state.nodes).map KNode.name) hnodesU
            · intro p hp
              left
              refine ⟨hp, by simp, by simp, ?_⟩
              intro n hn hc
              exact hoccradical n hn p hp hc.symm
            · have hsub : (running_pods_of scheduler_name state).map Pod.name |>.Sublist
                  (state.pods.map Pod.name) := by
                unfold running_pods_of in_scope_pods
                exact ((List.filter_sublist _).trans (List.filter_sublist _)).map Pod.name
              exact List.Nodup.sublist hsub hpodsU
          exact schedule_fold_c10 state pre (running_pods_of scheduler_name state)
            hbUniq gangs [] [] (sorted_available_nodes scheduler_name state)
            (running_pods_of scheduler_name state) (allB, allE) hf hgangspods hinv0


/-- Witness for C10 (amended) on a clean preemption snapshot. -/
theorem c10_bound_nodes_witness :
    ((⟨[⟨"ns", "lo"⟩], [⟨"hi", "na"⟩]⟩ : SchedulingActions).bindings.map
      Binding.nodeName).Nodup ∧
    ∀ b ∈ (⟨[⟨"ns", "lo"⟩], [⟨"hi", "na"⟩]⟩ : SchedulingActions).bindings,
      ∀ r ∈ running_pods_of "s" stateC10w, r.nodeName = some b.nodeName →
        r.name ∈ (⟨[⟨"ns", "lo"⟩], [⟨"hi", "na"⟩]⟩ : SchedulingActions).evictions.map
          Eviction.podName :=
  c10_bound_nodes_amended "s" stateC10w true ⟨[⟨"ns", "lo"⟩], [⟨"hi", "na"⟩]⟩
    (by decide) (by decide) (by decide) (by decide) (by decide) (by decide)

end Scheduler
